import Mathlib

/-!
Verification of `tzrec/models/fusion_dssm_v2.py` (EasyRec-Torch).

The file defines a shallow embedding of the FusionDSSMV2 model: 2-D tensors
are lists of rows over a linear ordered field, the framework's random
permutation stream (`torch.randperm`) is an explicit argument, and the two
runtime errors reachable in `_perm_feat` (`torch.cat` on an empty list of
tensors, and indexing `feature_list[0]` on an empty list) are modelled with
`Except String`.  Row-wise submodules supplied by the surrounding framework
(`MLP`, `InputSENet`, `nn.Linear`) are modelled as row functions; `nn.Linear`
carries its guaranteed output width.  `F.normalize(p=2, dim=1)` divides each
row by `max(norm, eps)` with `eps = 1e-12`; the square root primitive is a
field of the tower, constrained locally in the theorems that need it.
-/

set_option maxHeartbeats 1000000
set_option linter.unusedSectionVars false

namespace FusionDSSMV2

/-- A 2-D tensor: a list of rows. -/
abbrev Mat (α : Type) := List (List α)

variable {α : Type} [LinearOrderedField α]

/-- Inner product of two rows (`torch` dot along the last dimension). -/
def dotList (u v : List α) : α := (List.zipWith (fun a b => a * b) u v).sum

/-- `torch.index_select(m, 0, idx)`: gather rows of `m` at the indices `idx`. -/
def indexSelect (m : Mat α) (idx : List ℕ) : Mat α := idx.map (fun j => m.getD j [])

/-- `torch.where(xs == i)[0]`: the ascending list of positions holding `i`. -/
def whereEq (xs : List ℕ) (i : ℕ) : List ℕ :=
  (List.range xs.length).filter (fun j => xs.getD j 0 == i)

/-- `torch.split(m, dims, dim=-1)`: cut every row into blocks of widths `dims`. -/
def splitDims (m : Mat α) : List ℕ → List (Mat α)
  | [] => []
  | d :: ds => m.map (List.take d) :: splitDims (m.map (List.drop d)) ds

/-- `torch.cat(blocks, dim=-1)`: concatenate blocks row by row. -/
def catBlocks : List (Mat α) → Mat α
  | [] => []
  | [b] => b
  | b :: bs => List.zipWith (fun r s => r ++ s) b (catBlocks bs)

/-- The loop body `for idx, f in enumerate(feature_list)` of `_perm_feat`:
blocks whose index is in `perm_feats_index` are reindexed by `perm`. -/
def permBlocksAux (permFeatsIndex : List ℕ) (perm : List ℕ) :
    ℕ → List (Mat α) → List (Mat α)
  | _, [] => []
  | idx, f :: fs =>
    (if idx ∈ permFeatsIndex then indexSelect f perm else f)
      :: permBlocksAux permFeatsIndex perm (idx + 1) fs

/-- One fold of `_perm_feat`: permute the selected blocks with one shared
permutation and concatenate along the last dimension. -/
def permFold (featureList : List (Mat α)) (permFeatsIndex : List ℕ)
    (perm : List ℕ) : Mat α :=
  catBlocks (permBlocksAux permFeatsIndex perm 0 featureList)

/-- Error raised by `torch.cat` on an empty list of tensors. -/
def catMsg : String := "torch.cat expected a non-empty list of tensors"

/-- Error raised by indexing an empty feature list. -/
def emptyListMsg : String := "feature_list index out of range"

/-- `_perm_feat`: split the input by `featDims`, build `permNflods` folds,
each permuted by the fold's draw `perms k` of `torch.randperm`, and
concatenate the folds along the batch dimension.  With `permNflods = 0` the
final `torch.cat` receives an empty list and raises; with a non-empty number
of folds but an empty split, `feature_list[0]` raises. -/
def permFeat (feature : Mat α) (featDims : List ℕ) (permFeatsIndex : List ℕ)
    (permNflods : ℕ) (perms : ℕ → List ℕ) : Except String (Mat α) :=
  let featureList := splitDims feature featDims
  if permNflods = 0 then .error catMsg
  else if featureList.isEmpty then .error emptyListMsg
  else .ok (((List.range permNflods).map
      (fun k => permFold featureList permFeatsIndex (perms k))).flatten)

/-- `match_model_pb2.Similarity`. -/
inductive Similarity where
  | COSINE
  | INNER_PRODUCT
deriving DecidableEq

/-- A row-wise framework module together with its guaranteed output width
(`MLP` with `output_dim()`, `nn.Linear` with `out_features`). -/
structure RowModule (α : Type) where
  fn : List α → List α
  outDim : ℕ
  fn_len : ∀ r, (fn r).length = outDim

/-- Parameters of an `nn.Linear` layer. -/
structure LinearParams (α : Type) where
  weight : Mat α
  bias : List α

/-- `nn.Linear(inF, outF)`: row function `W x + b` with `outF` outputs. -/
def nnLinear (_inF outF : ℕ) (p : LinearParams α) : RowModule α where
  fn := fun r => List.ofFn (fun o : Fin outF => dotList (p.weight.getD o.val []) r + p.bias.getD o.val 0)
  outDim := outF
  fn_len := by intro r; simp

/-- The state of a `DSSMTower` module after `__init__`. -/
structure Tower (α : Type) where
  useSenet : Bool
  senet : List α → List α
  mlp : RowModule α
  outputDim : ℕ
  output : RowModule α
  similarity : Similarity
  sqrtFn : α → α
  featDims : List ℕ
  permFeatsIndex : List ℕ
  permNflods : ℕ

/-- `eps` of `F.normalize` (`1e-12`). -/
def l2NormEps : α := ((10 : α) ^ 12)⁻¹

/-- Sum of squares of a row (the square of its L2 norm). -/
def sumSq (r : List α) : α := (r.map (fun x => x * x)).sum

/-- `F.normalize(_, p=2.0, dim=1)` on one row: divide by `max(norm, eps)`,
with the framework square root supplied as `sqrtFn`. -/
def normalizeRow (sqrtFn : α → α) (r : List α) : List α :=
  r.map (fun x => x / max (sqrtFn (sumSq r)) l2NormEps)

/-- The row-wise part of `DSSMTower.forward` before normalization:
optional SENet, then MLP, then the output projection when `output_dim > 0`. -/
def preNormRow (t : Tower α) (r : List α) : List α :=
  let r1 := if t.useSenet then t.senet r else r
  let r2 := t.mlp.fn r1
  if 0 < t.outputDim then t.output.fn r2 else r2

/-- The full row-wise part of `DSSMTower.forward`: normalize when the
configured similarity is COSINE. -/
def towerRow (t : Tower α) (r : List α) : List α :=
  let o := preNormRow t r
  if t.similarity = Similarity.COSINE then normalizeRow t.sqrtFn o else o

/-- The optional `torch.index_select` on the tower input. -/
def applySelect (feature : Mat α) : Option (List ℕ) → Mat α
  | some idx => indexSelect feature idx
  | none => feature

/-- `DSSMTower.forward`: select rows, optionally run `_perm_feat`, then the
row-wise stages. -/
def forward (t : Tower α) (feature : Mat α) (towerIndex : Option (List ℕ))
    (perms : ℕ → List ℕ) (permute : Bool) : Except String (Mat α) :=
  let f1 := applySelect feature towerIndex
  if permute ∧ 0 < t.permFeatsIndex.length then
    match permFeat f1 t.featDims t.permFeatsIndex t.permNflods perms with
    | .error s => .error s
    | .ok f2 => .ok (f2.map (towerRow t))
  else .ok (f1.map (towerRow t))

/-- `DSSMTower.__init__`: record the configuration, build the output
projection `nn.Linear(mlp.output_dim(), output_dim)`, and turn the perm
feature names into indices into the feature group's name list. -/
def mkDSSMTower (towerMlp : RowModule α) (outputDim : ℕ) (similarity : Similarity)
    (useSenet : Bool) (senetFn : List α → List α) (featureNames : List String)
    (featureGroupDims : List ℕ) (linParams : LinearParams α) (sqrtFn : α → α)
    (permFeatures : List String) (permNflods : ℕ) : Tower α where
  useSenet := useSenet
  senet := senetFn
  mlp := towerMlp
  outputDim := outputDim
  output := nnLinear towerMlp.outDim outputDim linParams
  similarity := similarity
  sqrtFn := sqrtFn
  featDims := featureGroupDims
  permFeatsIndex := permFeatures.map (fun n => List.indexOf n featureNames)
  permNflods := permNflods

/-- One entry of `model_config.user_tower_perm_feat`. -/
structure PermFeatCfg where
  towerName : String
  features : List String
  nflods : ℕ

/-- The data determining one tower: its feature group name (`tower.input`),
its framework submodules, and the feature group layout. -/
structure UserTowerSpec (α : Type) where
  input : String
  mlp : RowModule α
  senet : List α → List α
  linParams : LinearParams α
  featureNames : List String
  groupDims : List ℕ

/-- The part of `ModelConfig` that `FusionDSSMV2.__init__` reads. -/
structure ModelCfg (α : Type) where
  outputDim : ℕ
  similarity : Similarity
  useSenet : Bool
  temperature : α
  userTowers : List (UserTowerSpec α)
  itemTower : UserTowerSpec α
  userTowerPermFeat : List PermFeatCfg
  sqrtFn : α → α

/-- Lookup in the Python dict `{x.tower_name: x for x in user_tower_perm_feat}`:
a later entry with the same key overrides an earlier one. -/
def dictLookup (cfgs : List PermFeatCfg) (name : String) : Option PermFeatCfg :=
  cfgs.reverse.find? (fun c => c.towerName == name)

/-- The body of the tower-construction loop of `FusionDSSMV2.__init__` for one
user tower spec. -/
def cfgTower (cfg : ModelCfg α) (ts : UserTowerSpec α) : Tower α :=
  match dictLookup cfg.userTowerPermFeat ts.input with
  | some pc => mkDSSMTower ts.mlp cfg.outputDim cfg.similarity cfg.useSenet ts.senet
      ts.featureNames ts.groupDims ts.linParams cfg.sqrtFn pc.features pc.nflods
  | none => mkDSSMTower ts.mlp cfg.outputDim cfg.similarity cfg.useSenet ts.senet
      ts.featureNames ts.groupDims ts.linParams cfg.sqrtFn [] 0

/-- The state of a `FusionDSSMV2` module after `__init__`: the named user
tower attributes (in declaration order), the single item tower, and the
pieces of the config that `predict` reads. -/
structure Model (α : Type) where
  userTowers : List (String × Tower α)
  itemTower : Tower α
  itemTowerName : String
  temperature : α
  permTowers : List PermFeatCfg

/-- `FusionDSSMV2.__init__`: every user tower is built with the one
`output_dim`/`similarity`/`use_senet` of the model config and stored under
the attribute name `f"{tower.input}_tower"`; the single item tower is built
from the item feature group with no perm features. -/
def mkFusionDSSMV2 (cfg : ModelCfg α) : Model α where
  userTowers := cfg.userTowers.map (fun ts => (ts.input, cfgTower cfg ts))
  itemTower := mkDSSMTower cfg.itemTower.mlp cfg.outputDim cfg.similarity
    cfg.useSenet cfg.itemTower.senet cfg.itemTower.featureNames
    cfg.itemTower.groupDims cfg.itemTower.linParams cfg.sqrtFn [] 0
  itemTowerName := cfg.itemTower.input
  temperature := cfg.temperature
  permTowers := cfg.userTowerPermFeat

/-- `getattr(self, f"{name}_tower")`: `setattr` overwrites, so the last tower
registered under a name wins. -/
def getattrTower (towers : List (String × Tower α)) (name : String) : Option (Tower α) :=
  (towers.reverse.find? (fun p => p.1 == name)).map Prod.snd

/-- Python dict assignment `d[k] = v`: overwrite in place or append. -/
def dictInsert (d : List (String × Mat α)) (k : String) (v : Mat α) :
    List (String × Mat α) :=
  if (d.find? (fun p => p.1 == k)).isSome then
    d.map (fun p => if p.1 == k then (k, v) else p)
  else d ++ [(k, v)]

/-- The prediction key `f"similarity_{tower.input}"`. -/
def simKey (name : String) : String := "similarity_" ++ name

/-- Modelled from the spec: `FusionMatchModel.sim` (defined in
`tzrec/models/fusion_match_model.py`, which is not part of this file)
computes similarity scores between user and item embeddings; it is modelled
as the matrix of inner products of every user row with every item row. -/
def simMatrix (u v : Mat α) : Mat α := u.map (fun ur => v.map (fun vr => dotList ur vr))

/-- `t / temperature` applied entrywise. -/
def scaleMatrix (m : Mat α) (temp : α) : Mat α :=
  m.map (fun row => row.map (fun x => x / temp))

/-- `torch.cat([a, b], dim=-1)`. -/
def catCols (a b : Mat α) : Mat α := List.zipWith (fun r s => r ++ s) a b

/-- `m.reshape(nflods, -1, m.size(1))` viewed as a list of `nflods` row
chunks. -/
def reshapeFolds (nflods : ℕ) (m : Mat α) : List (Mat α) :=
  (List.range nflods).map (fun b => (m.drop (b * (m.length / nflods))).take (m.length / nflods))

/-- `torch.einsum("bij,ij->ib", folds, pos)`: entry `(i, b)` is the inner
product of row `i` of fold `b` with row `i` of `pos`. -/
def einsumBijIjIb (folds : List (Mat α)) (pos : Mat α) : Mat α :=
  (List.range pos.length).map (fun i => folds.map (fun f => dotList (f.getD i []) (pos.getD i [])))

/-- One iteration of the channel loop of `FusionDSSMV2.predict` for user
tower number `i` named `name`: route the rows whose channel label is `i`
into the tower, score them against the positive rows of the item embedding
and the in-batch negatives `item_tower_emb[batch_size:]`, and in training
mode extend the scores of a perm-configured tower with the einsum block of
the permuted user embedding. -/
def predictEntry (m : Model α) (training : Bool) (gf : String → Mat α)
    (channel : List ℕ) (rng : ℕ → ℕ → List ℕ) (itemEmb : Mat α) (i : ℕ)
    (name : String) (tw : Tower α) : Except String (String × Mat α) :=
  let towerIndex := whereEq channel i
  let batchSize := channel.length
  match forward tw (gf name) (some towerIndex) (rng i) false with
  | .error s => .error s
  | .ok userEmb =>
    let posItemEmb := indexSelect itemEmb towerIndex
    let negItemEmb := itemEmb.drop batchSize
    let uiSim := simMatrix userEmb (posItemEmb ++ negItemEmb)
    match dictLookup m.permTowers name, training with
    | some pc, true =>
      match forward tw (gf name) (some towerIndex) (rng i) true with
      | .error s => .error s
      | .ok permEmb =>
        let folded := reshapeFolds pc.nflods permEmb
        let negUiSim := einsumBijIjIb folded posItemEmb
        .ok (simKey name, scaleMatrix (catCols uiSim negUiSim) m.temperature)
    | _, _ => .ok (simKey name, scaleMatrix uiSim m.temperature)

/-- Error for a missing tower attribute (unreachable when towers are looked
up by a name they were registered under). -/
def attrMsg : String := "missing tower attribute"

/-- The channel loop of `FusionDSSMV2.predict`: iterate over the user tower
configs in order, fetch each tower by attribute name, and assign its scores
into the prediction dict. -/
def predictEntries (m : Model α) (training : Bool) (gf : String → Mat α)
    (channel : List ℕ) (rng : ℕ → ℕ → List ℕ) (itemEmb : Mat α) :
    ℕ → List String → List (String × Mat α) → Except String (List (String × Mat α))
  | _, [], acc => .ok acc
  | i, name :: rest, acc =>
    match getattrTower m.userTowers name with
    | none => .error attrMsg
    | some tw =>
      match predictEntry m training gf channel rng itemEmb i name tw with
      | .error s => .error s
      | .ok e =>
        predictEntries m training gf channel rng itemEmb (i + 1) rest
          (dictInsert acc e.1 e.2)

/-- `FusionDSSMV2.predict`: embed the item feature group once through the
item tower, then run the channel loop. -/
def predict (m : Model α) (training : Bool) (gf : String → Mat α)
    (channel : List ℕ) (rng : ℕ → ℕ → List ℕ) :
    Except String (List (String × Mat α)) :=
  match forward m.itemTower (gf m.itemTowerName) none (fun _ => []) false with
  | .error s => .error s
  | .ok itemEmb =>
    predictEntries m training gf channel rng itemEmb 0 (m.userTowers.map Prod.fst) []

/-! ### Basic facts about the tensor operations -/

theorem indexSelect_length (m : Mat α) (idx : List ℕ) :
    (indexSelect m idx).length = idx.length := by
  simp [indexSelect]

theorem mem_indexSelect {m : Mat α} {idx : List ℕ} {r : List α}
    (h : r ∈ indexSelect m idx) : ∃ j ∈ idx, r = m.getD j [] := by
  simpa [indexSelect, eq_comm] using h

theorem getD_mem_of_lt {l : List (List α)} {n : ℕ} (h : n < l.length) :
    l.getD n [] ∈ l := by
  rw [List.getD_eq_getElem l [] h]
  exact List.getElem_mem h

theorem mem_of_mem_indexSelect {m : Mat α} {idx : List ℕ} {r : List α}
    (h : r ∈ indexSelect m idx) (hv : ∀ j ∈ idx, j < m.length) : r ∈ m := by
  obtain ⟨j, hj, rfl⟩ := mem_indexSelect h
  exact getD_mem_of_lt (hv j hj)

theorem splitDims_length (m : Mat α) (dims : List ℕ) :
    (splitDims m dims).length = dims.length := by
  induction dims generalizing m with
  | nil => rfl
  | cons d ds ih => simp [splitDims, ih]

theorem splitDims_rows (m : Mat α) (dims : List ℕ) :
    ∀ b ∈ splitDims m dims, b.length = m.length := by
  induction dims generalizing m with
  | nil => simp [splitDims]
  | cons d ds ih =>
    intro b hb
    rcases List.mem_cons.1 hb with rfl | hb
    · simp
    · simpa using (ih (m.map (List.drop d)) b hb)

theorem splitDims_widths (m : Mat α) (dims : List ℕ)
    (hw : ∀ r ∈ m, r.length = dims.sum) :
    List.Forall₂ (fun (b : Mat α) (d : ℕ) => ∀ r ∈ b, r.length = d)
      (splitDims m dims) dims := by
  induction dims generalizing m with
  | nil => simp [splitDims]
  | cons d ds ih =>
    refine List.Forall₂.cons ?_ (ih (m.map (List.drop d)) ?_)
    · intro r hr
      obtain ⟨r0, hr0, rfl⟩ := List.mem_map.1 hr
      have := hw r0 hr0
      simp [this]
    · intro r hr
      obtain ⟨r0, hr0, rfl⟩ := List.mem_map.1 hr
      have := hw r0 hr0
      simp [this]

theorem zipApp_map_take {d : ℕ} (b c : Mat α) (hlen : c.length = b.length)
    (hw : ∀ r ∈ b, r.length = d) :
    (List.zipWith (fun r s => r ++ s) b c).map (List.take d) = b := by
  induction b generalizing c with
  | nil => simp
  | cons r b ih =>
    cases c with
    | nil => simp at hlen
    | cons s c =>
      simp only [List.zipWith_cons_cons, List.map_cons]
      have hr : r.length = d := hw r (by simp)
      have h1 : List.take d (r ++ s) = r := by rw [← hr]; exact List.take_left r s
      rw [h1, ih c (by simpa using hlen) (fun x hx => hw x (by simp [hx]))]

theorem zipApp_map_drop {d : ℕ} (b c : Mat α) (hlen : c.length = b.length)
    (hw : ∀ r ∈ b, r.length = d) :
    (List.zipWith (fun r s => r ++ s) b c).map (List.drop d) = c := by
  induction b generalizing c with
  | nil => cases c <;> simp_all
  | cons r b ih =>
    cases c with
    | nil => simp at hlen
    | cons s c =>
      simp only [List.zipWith_cons_cons, List.map_cons]
      have hr : r.length = d := hw r (by simp)
      have h1 : List.drop d (r ++ s) = s := by rw [← hr]; exact List.drop_left r s
      rw [h1, ih c (by simpa using hlen) (fun x hx => hw x (by simp [hx]))]

theorem catBlocks_cons_cons (b c : Mat α) (bs : List (Mat α)) :
    catBlocks (b :: c :: bs) =
      List.zipWith (fun r s => r ++ s) b (catBlocks (c :: bs)) := rfl

theorem catBlocks_length {B : ℕ} (bs : List (Mat α)) (h0 : bs ≠ [])
    (hB : ∀ b ∈ bs, b.length = B) : (catBlocks bs).length = B := by
  induction bs with
  | nil => exact absurd rfl h0
  | cons b bs ih =>
    cases bs with
    | nil => simpa using hB b (by simp)
    | cons c bs' =>
      rw [catBlocks_cons_cons]
      have h1 : b.length = B := hB b (by simp)
      have h2 : (catBlocks (c :: bs')).length = B :=
        ih (by simp) (fun x hx => hB x (by simp [hx]))
      simp [List.length_zipWith, h1, h2]

theorem mem_zipApp {b c : Mat α} {r : List α}
    (h : r ∈ List.zipWith (fun x y => x ++ y) b c) :
    ∃ x ∈ b, ∃ y ∈ c, r = x ++ y := by
  obtain ⟨i, hi⟩ := List.mem_iff_get.1 h
  have hia : i.val < b.length :=
    lt_of_lt_of_le i.2 (by simp [List.length_zipWith])
  have hib : i.val < c.length :=
    lt_of_lt_of_le i.2 (by simp [List.length_zipWith])
  refine ⟨b.get ⟨i, hia⟩, List.get_mem b i.val hia,
    c.get ⟨i, hib⟩, List.get_mem c i.val hib, ?_⟩
  rw [← hi]
  simp [List.get_eq_getElem, List.getElem_zipWith]

theorem catBlocks_row_length {B : ℕ} (bs : List (Mat α)) (ws : List ℕ)
    (hB : ∀ b ∈ bs, b.length = B)
    (hw : List.Forall₂ (fun (b : Mat α) (d : ℕ) => ∀ r ∈ b, r.length = d) bs ws) :
    ∀ r ∈ catBlocks bs, r.length = ws.sum := by
  induction hw with
  | nil => simp [catBlocks]
  | @cons b d bs' ws' hbd hrest ih =>
    cases hrest with
    | nil =>
      intro r hr
      simp [catBlocks] at hr
      simp [hbd r hr]
    | @cons c d' bs'' ws'' hcd hrest' =>
      intro r hr
      rw [catBlocks_cons_cons] at hr
      obtain ⟨x, hx, y, hy, rfl⟩ := mem_zipApp hr
      have hylen : y.length = (d' :: ws'').sum :=
        ih (fun bb hb => hB bb (by simp [hb])) y hy
      simp [hbd x hx, hylen]

theorem splitDims_catBlocks {B : ℕ} (bs : List (Mat α)) (ws : List ℕ)
    (hB : ∀ b ∈ bs, b.length = B)
    (hw : List.Forall₂ (fun (b : Mat α) (d : ℕ) => ∀ r ∈ b, r.length = d) bs ws) :
    splitDims (catBlocks bs) ws = bs := by
  induction hw with
  | nil => simp [catBlocks, splitDims]
  | @cons b d bs' ws' hbd hrest ih =>
    cases hrest with
    | nil =>
      simp only [catBlocks, splitDims]
      have h1 : List.map (List.take d) b = List.map id b :=
        List.map_congr_left (fun r hr => by
          simp only [id]
          rw [← hbd r hr]
          exact List.take_length r)
      rw [h1, List.map_id]
    | @cons c d' bs'' ws'' hcd hrest' =>
      have hB' : ∀ x ∈ c :: bs'', x.length = B := fun x hx => hB x (by simp [hx])
      have hrest2 : List.Forall₂ (fun (x : Mat α) (dd : ℕ) => ∀ r ∈ x, r.length = dd)
          (c :: bs'') (d' :: ws'') := List.Forall₂.cons hcd hrest'
      have hclen : (catBlocks (c :: bs'')).length = B :=
        catBlocks_length (c :: bs'') (by simp) hB'
      have hblen : b.length = B := hB b (by simp)
      rw [catBlocks_cons_cons]
      simp only [splitDims]
      rw [zipApp_map_take b (catBlocks (c :: bs'')) (by rw [hclen, hblen]) hbd,
        zipApp_map_drop b (catBlocks (c :: bs'')) (by rw [hclen, hblen]) hbd]
      exact congrArg (b :: ·) (ih hB')

theorem permBlocksAux_length (pidx perm : List ℕ) (i0 : ℕ) (fs : List (Mat α)) :
    (permBlocksAux pidx perm i0 fs).length = fs.length := by
  induction fs generalizing i0 with
  | nil => rfl
  | cons f fs ih => simp [permBlocksAux, ih]

theorem permBlocksAux_getD (pidx perm : List ℕ) (i0 : ℕ) (fs : List (Mat α))
    (k : ℕ) (hk : k < fs.length) :
    (permBlocksAux pidx perm i0 fs).getD k [] =
      if (i0 + k) ∈ pidx then indexSelect (fs.getD k []) perm else fs.getD k [] := by
  induction fs generalizing i0 k with
  | nil => simp at hk
  | cons f fs ih =>
    cases k with
    | zero => simp [permBlocksAux]
    | succ k =>
      have hk' : k < fs.length := by simpa using hk
      have := ih (i0 + 1) k hk'
      simp only [permBlocksAux, List.getD_cons_succ]
      rw [this]
      have harith : i0 + 1 + k = i0 + (k + 1) := by omega
      rw [harith]

theorem permBlocksAux_mem {pidx perm : List ℕ} {i0 : ℕ} {fs : List (Mat α)}
    {b : Mat α} (h : b ∈ permBlocksAux pidx perm i0 fs) :
    (∃ f ∈ fs, b = f) ∨ (∃ f ∈ fs, b = indexSelect f perm) := by
  induction fs generalizing i0 with
  | nil => simp [permBlocksAux] at h
  | cons f fs ih =>
    simp only [permBlocksAux, List.mem_cons] at h
    rcases h with h | h
    · by_cases hc : i0 ∈ pidx
      · right; exact ⟨f, by simp, by simpa [hc] using h⟩
      · left; exact ⟨f, by simp, by simpa [hc] using h⟩
    · rcases ih h with ⟨g, hg, he⟩ | ⟨g, hg, he⟩
      · left; exact ⟨g, by simp [hg], he⟩
      · right; exact ⟨g, by simp [hg], he⟩

theorem flatten_chunk {B : ℕ} (ls : List (Mat α)) (hB : ∀ l ∈ ls, l.length = B)
    (k : ℕ) (hk : k < ls.length) :
    (ls.flatten.drop (k * B)).take B = ls.getD k [] := by
  induction ls generalizing k with
  | nil => simp at hk
  | cons l ls ih =>
    cases k with
    | zero =>
      have hl : l.length = B := hB l (by simp)
      simp only [Nat.zero_mul, List.drop_zero, List.flatten_cons, List.getD_cons_zero]
      rw [← hl, List.take_left]
    | succ k =>
      have hl : l.length = B := hB l (by simp)
      have hk' : k < ls.length := by simpa using hk
      have harith : (k + 1) * B = B + k * B := by ring
      rw [harith, List.flatten_cons, ← List.drop_drop, ← hl, List.drop_left, hl]
      exact ih (fun x hx => hB x (by simp [hx])) k hk'

/-! ### Structure of `_perm_feat` and `forward` -/

theorem splitDims_eq_nil_iff (m : Mat α) (dims : List ℕ) :
    splitDims m dims = [] ↔ dims = [] := by
  constructor
  · intro h
    have := splitDims_length m dims
    rw [h] at this
    exact List.length_eq_zero.1 this.symm
  · intro h
    subst h
    rfl

theorem permFeat_zero (feature : Mat α) (featDims pidx : List ℕ)
    (perms : ℕ → List ℕ) : permFeat feature featDims pidx 0 perms = .error catMsg := by
  simp [permFeat]

theorem permFeat_eq_ok (feature : Mat α) (featDims pidx : List ℕ)
    (permNflods : ℕ) (perms : ℕ → List ℕ) (hn : permNflods ≠ 0) (hd : featDims ≠ []) :
    permFeat feature featDims pidx permNflods perms =
      .ok (((List.range permNflods).map
        (fun k => permFold (splitDims feature featDims) pidx (perms k))).flatten) := by
  have hne : ¬ (splitDims feature featDims).isEmpty := by
    rw [List.isEmpty_iff]
    simp [splitDims_eq_nil_iff, hd]
  simp [permFeat, hn, hne]

theorem permFeat_ok_inv {feature : Mat α} {featDims pidx : List ℕ}
    {permNflods : ℕ} {perms : ℕ → List ℕ} {out : Mat α}
    (h : permFeat feature featDims pidx permNflods perms = .ok out) :
    permNflods ≠ 0 ∧ featDims ≠ [] ∧
      out = ((List.range permNflods).map
        (fun k => permFold (splitDims feature featDims) pidx (perms k))).flatten := by
  by_cases hn : permNflods = 0
  · rw [hn, permFeat_zero] at h
    exact absurd h (by simp)
  · by_cases hd : featDims = []
    · have hne : (splitDims feature featDims).isEmpty := by
        rw [List.isEmpty_iff, splitDims_eq_nil_iff]
        exact hd
      simp [permFeat, hn, hne] at h
    · rw [permFeat_eq_ok feature featDims pidx permNflods perms hn hd] at h
      exact ⟨hn, hd, (Except.ok.injEq _ _ ▸ h.symm :)⟩

theorem permBlocksAux_rows {B : ℕ} {pidx perm : List ℕ} {fl : List (Mat α)}
    (hB : ∀ b ∈ fl, b.length = B) (hperm : perm.length = B) :
    ∀ i0, ∀ b ∈ permBlocksAux pidx perm i0 fl, b.length = B := by
  intro i0 b hb
  rcases permBlocksAux_mem hb with ⟨f, hf, he⟩ | ⟨f, hf, he⟩
  · rw [he]; exact hB f hf
  · rw [he, indexSelect_length]; exact hperm

theorem permBlocksAux_widths {B : ℕ} {pidx perm : List ℕ}
    (hv : ∀ j ∈ perm, j < B) :
    ∀ {fl : List (Mat α)} {dims : List ℕ},
      List.Forall₂ (fun (b : Mat α) (d : ℕ) => ∀ r ∈ b, r.length = d) fl dims →
      (∀ b ∈ fl, b.length = B) → ∀ i0,
      List.Forall₂ (fun (b : Mat α) (d : ℕ) => ∀ r ∈ b, r.length = d)
        (permBlocksAux pidx perm i0 fl) dims := by
  intro fl dims hw
  induction hw with
  | nil => intro _ _; exact .nil
  | @cons b d fl' dims' hbd hrest ih =>
    intro hB i0
    refine List.Forall₂.cons ?_ (ih (fun x hx => hB x (by simp [hx])) (i0 + 1))
    by_cases hc : i0 ∈ pidx
    · simp only [permBlocksAux, hc, if_true]
      intro r hr
      obtain ⟨j, hj, rfl⟩ := mem_indexSelect hr
      have hjb : j < b.length := by rw [hB b (by simp)]; exact hv j hj
      exact hbd _ (getD_mem_of_lt hjb)
    · simp only [permBlocksAux, hc, if_false]
      exact hbd

theorem permFold_length {B : ℕ} (fl : List (Mat α)) (pidx perm : List ℕ)
    (h0 : fl ≠ []) (hB : ∀ b ∈ fl, b.length = B) (hperm : perm.length = B) :
    (permFold fl pidx perm).length = B := by
  apply catBlocks_length
  · intro h
    apply h0
    have := permBlocksAux_length pidx perm 0 fl
    rw [h] at this
    exact List.length_eq_zero.1 this.symm
  · exact permBlocksAux_rows hB hperm 0

theorem forward_false (t : Tower α) (f : Mat α) (ti : Option (List ℕ))
    (perms : ℕ → List ℕ) :
    forward t f ti perms false = .ok ((applySelect f ti).map (towerRow t)) := by
  simp [forward]

theorem forward_permute_eq (t : Tower α) (f : Mat α) (ti : Option (List ℕ))
    (perms : ℕ → List ℕ) (hp : 0 < t.permFeatsIndex.length) :
    forward t f ti perms true =
      match permFeat (applySelect f ti) t.featDims t.permFeatsIndex t.permNflods perms with
      | .error s => .error s
      | .ok f2 => .ok (f2.map (towerRow t)) := by
  simp [forward, hp]

/-! ### Structure of the `predict` channel loop -/

/-- Default entry used with `List.getD` on prediction lists. -/
def junkEntry : String × Mat α := ("", [])

theorem simKey_inj {a b : String} (h : simKey a = simKey b) : a = b := by
  have hd := congrArg String.data h
  simp only [simKey, String.data_append] at hd
  exact String.ext (List.append_cancel_left hd)

theorem dictInsert_of_not_mem {d : List (String × Mat α)} {k : String} {v : Mat α}
    (h : ∀ q ∈ d, q.1 ≠ k) : dictInsert d k v = d ++ [(k, v)] := by
  have hf : d.find? (fun p => p.1 == k) = none := by
    rw [List.find?_eq_none]
    intro q hq
    simpa using h q hq
  simp [dictInsert, hf]

theorem predictEntry_key {m : Model α} {training : Bool} {gf : String → Mat α}
    {channel : List ℕ} {rng : ℕ → ℕ → List ℕ} {itemEmb : Mat α} {i : ℕ}
    {name : String} {tw : Tower α} {e : String × Mat α}
    (h : predictEntry m training gf channel rng itemEmb i name tw = .ok e) :
    e.1 = simKey name := by
  simp only [predictEntry, forward_false] at h
  rcases hdl : dictLookup m.permTowers name with _ | pc <;> rw [hdl] at h <;>
    cases training
  · exact congrArg Prod.fst (Except.ok.inj h).symm
  · exact congrArg Prod.fst (Except.ok.inj h).symm
  · exact congrArg Prod.fst (Except.ok.inj h).symm
  · rcases hf : forward tw (gf name) (some (whereEq channel i)) (rng i) true
      with s | pe <;> rw [hf] at h
    · exact absurd h (by simp)
    · exact congrArg Prod.fst (Except.ok.inj h).symm

theorem getattrTower_nodup (towers : List (String × Tower α))
    (hnd : (towers.map Prod.fst).Nodup) {k : ℕ} (hk : k < towers.length) :
    getattrTower towers (towers.get ⟨k, hk⟩).1 = some (towers.get ⟨k, hk⟩).2 := by
  have hp : towers.get ⟨k, hk⟩ ∈ towers := List.get_mem towers k hk
  unfold getattrTower
  rcases hf : towers.reverse.find? (fun q => q.1 == (towers.get ⟨k, hk⟩).1) with _ | q
  · rw [List.find?_eq_none] at hf
    exact absurd (by simp) (hf _ (List.mem_reverse.2 hp))
  · have hq1 : q.1 = (towers.get ⟨k, hk⟩).1 := by
      have := List.find?_some hf
      simpa using this
    have hqm : q ∈ towers := List.mem_reverse.1 (List.mem_of_find?_eq_some hf)
    have hqp : q = towers.get ⟨k, hk⟩ :=
      List.inj_on_of_nodup_map hnd hqm hp hq1
    rw [hf, hqp]
    rfl

theorem predictEntries_ok {m : Model α} {training : Bool} {gf : String → Mat α}
    {channel : List ℕ} {rng : ℕ → ℕ → List ℕ} {itemEmb : Mat α} :
    ∀ (names : List String) (i0 : ℕ) (acc out : List (String × Mat α)),
      predictEntries m training gf channel rng itemEmb i0 names acc = .ok out →
      (∀ n ∈ names, ∀ q ∈ acc, q.1 ≠ simKey n) →
      names.Nodup →
      ∃ es, out = acc ++ es ∧ es.length = names.length ∧
        ∀ k, ∀ hk : k < names.length, ∃ tw,
          getattrTower m.userTowers (names.get ⟨k, hk⟩) = some tw ∧
          predictEntry m training gf channel rng itemEmb (i0 + k)
            (names.get ⟨k, hk⟩) tw = .ok (es.getD k junkEntry) := by
  intro names
  induction names with
  | nil =>
    intro i0 acc out h _ _
    refine ⟨[], ?_, by simp, by simp⟩
    have : acc = out := Except.ok.inj h
    simp [this]
  | cons name rest ih =>
    intro i0 acc out h hfr hnd
    unfold predictEntries at h
    rcases hg : getattrTower m.userTowers name with _ | tw <;> rw [hg] at h
    · exact absurd h (by simp)
    · have h2 : (match predictEntry m training gf channel rng itemEmb i0 name tw with
          | Except.error s => Except.error s
          | Except.ok e => predictEntries m training gf channel rng itemEmb
              (i0 + 1) rest (dictInsert acc e.1 e.2)) = Except.ok out := h
      rcases hpe : predictEntry m training gf channel rng itemEmb i0 name tw
        with s | e <;> rw [hpe] at h2
      · exact absurd h2 (by simp)
      · have h3 : predictEntries m training gf channel rng itemEmb (i0 + 1) rest
            (dictInsert acc e.1 e.2) = Except.ok out := h2
        have hkey : e.1 = simKey name := predictEntry_key hpe
        have hins : dictInsert acc e.1 e.2 = acc ++ [e] := by
          rw [hkey, dictInsert_of_not_mem (fun q hq => hfr name (by simp) q hq)]
          rw [← hkey]
        rw [hins] at h3
        have hnotmem : name ∉ rest := (List.nodup_cons.1 hnd).1
        have hfr' : ∀ n ∈ rest, ∀ q ∈ acc ++ [e], q.1 ≠ simKey n := by
          intro n hn q hq
          rcases List.mem_append.1 hq with hq | hq
          · exact hfr n (by simp [hn]) q hq
          · have : q = e := by simpa using hq
            rw [this, hkey]
            intro hc
            exact hnotmem (simKey_inj hc ▸ hn)
        obtain ⟨es', rfl, hlen, hpt⟩ := ih (i0 + 1) (acc ++ [e]) out h3 hfr'
          (List.nodup_cons.1 hnd).2
        refine ⟨e :: es', by simp, by simp [hlen], ?_⟩
        intro k hk
        cases k with
        | zero =>
          refine ⟨tw, hg, ?_⟩
          simpa using hpe
        | succ k =>
          have hk' : k < rest.length := by simpa using hk
          obtain ⟨tw', hg', hpe'⟩ := hpt k hk'
          refine ⟨tw', by simpa using hg', ?_⟩
          have harith : i0 + 1 + k = i0 + (k + 1) := by omega
          rw [harith] at hpe'
          simpa using hpe'

theorem predict_ok_inv {m : Model α} {training : Bool} {gf : String → Mat α}
    {channel : List ℕ} {rng : ℕ → ℕ → List ℕ} {out : List (String × Mat α)}
    (h : predict m training gf channel rng = .ok out) :
    predictEntries m training gf channel rng
      ((gf m.itemTowerName).map (towerRow m.itemTower)) 0
      (m.userTowers.map Prod.fst) [] = .ok out := by
  unfold predict at h
  rw [forward_false] at h
  exact h

theorem applySelect_some (f : Mat α) (ti : List ℕ) :
    applySelect f (some ti) = indexSelect f ti := rfl

theorem predictEntry_ok_cases {m : Model α} {training : Bool} {gf : String → Mat α}
    {channel : List ℕ} {rng : ℕ → ℕ → List ℕ} {itemEmb : Mat α} {i : ℕ}
    {name : String} {tw : Tower α} {e : String × Mat α}
    (h : predictEntry m training gf channel rng itemEmb i name tw = .ok e) :
    ((dictLookup m.permTowers name = none ∨ training = false) →
      e = (simKey name,
        scaleMatrix (simMatrix ((indexSelect (gf name) (whereEq channel i)).map (towerRow tw))
          (indexSelect itemEmb (whereEq channel i) ++ itemEmb.drop channel.length))
          m.temperature)) ∧
    (∀ pc, dictLookup m.permTowers name = some pc → training = true →
      ∃ permEmb,
        forward tw (gf name) (some (whereEq channel i)) (rng i) true = .ok permEmb ∧
        e = (simKey name,
          scaleMatrix (catCols
            (simMatrix ((indexSelect (gf name) (whereEq channel i)).map (towerRow tw))
              (indexSelect itemEmb (whereEq channel i) ++ itemEmb.drop channel.length))
            (einsumBijIjIb (reshapeFolds pc.nflods permEmb)
              (indexSelect itemEmb (whereEq channel i))))
          m.temperature)) := by
  simp only [predictEntry, forward_false, applySelect_some] at h
  constructor
  · intro hcase
    rcases hdl : dictLookup m.permTowers name with _ | pc
    · rw [hdl] at h
      cases training
      · exact (Except.ok.inj h).symm
      · exact (Except.ok.inj h).symm
    · rcases hcase with hnone | htr
      · rw [hdl] at hnone
        exact absurd hnone (by simp)
      · rw [hdl, htr] at h
        exact (Except.ok.inj h).symm
  · intro pc hdl htr
    rw [hdl, htr] at h
    rcases hf : forward tw (gf name) (some (whereEq channel i)) (rng i) true
      with s | pe <;> rw [hf] at h
    · exact absurd h (by simp)
    · exact ⟨pe, rfl, (Except.ok.inj h).symm⟩

theorem indexSelect_map_whereEq (m : Mat α) (ch : List ℕ) (i : ℕ)
    (g : List α → List α) :
    (indexSelect m (whereEq ch i)).map g =
      ((List.range ch.length).filter (fun j => ch.getD j 0 == i)).map
        (fun j => g (m.getD j [])) := by
  simp [indexSelect, whereEq, List.map_map]

/-! ### Row lengths through the tower -/

theorem normalizeRow_length (sq : α → α) (r : List α) :
    (normalizeRow sq r).length = r.length := by
  simp [normalizeRow]

theorem preNormRow_length (t : Tower α) (hdim : 0 < t.outputDim) (r : List α) :
    (preNormRow t r).length = t.output.outDim := by
  unfold preNormRow
  simp [hdim, t.output.fn_len]

theorem towerRow_length (t : Tower α) (hdim : 0 < t.outputDim)
    (hout : t.output.outDim = t.outputDim) (r : List α) :
    (towerRow t r).length = t.outputDim := by
  unfold towerRow
  by_cases hcos : t.similarity = Similarity.COSINE
  · simp [hcos, normalizeRow_length, preNormRow_length t hdim, hout]
  · simp [hcos, preNormRow_length t hdim, hout]

theorem forward_rows_are_towerRow {t : Tower α} {f : Mat α}
    {ti : Option (List ℕ)} {perms : ℕ → List ℕ} {pm : Bool} {out : Mat α}
    (h : forward t f ti perms pm = .ok out) :
    ∀ r ∈ out, ∃ x, r = towerRow t x := by
  unfold forward at h
  split at h
  · have h2 : (match permFeat (applySelect f ti) t.featDims t.permFeatsIndex
          t.permNflods perms with
        | Except.error s => Except.error s
        | Except.ok f2 => Except.ok (List.map (towerRow t) f2)) = Except.ok out := h
    rcases hpf : permFeat (applySelect f ti) t.featDims t.permFeatsIndex
        t.permNflods perms with s | f2 <;> rw [hpf] at h2
    · exact absurd h2 (by simp)
    · have hout : out = List.map (towerRow t) f2 := (Except.ok.inj h2).symm
      subst hout
      intro r hr
      obtain ⟨x, _, rfl⟩ := List.mem_map.1 hr
      exact ⟨x, rfl⟩
  · have hout : out = _ := (Except.ok.inj h).symm
    subst hout
    intro r hr
    obtain ⟨x, _, rfl⟩ := List.mem_map.1 hr
    exact ⟨x, rfl⟩

theorem mkDSSMTower_output_outDim (towerMlp : RowModule α) (outputDim : ℕ)
    (similarity : Similarity) (useSenet : Bool) (senetFn : List α → List α)
    (featureNames : List String) (featureGroupDims : List ℕ)
    (linParams : LinearParams α) (sqrtFn : α → α) (permFeatures : List String)
    (permNflods : ℕ) :
    (mkDSSMTower towerMlp outputDim similarity useSenet senetFn featureNames
      featureGroupDims linParams sqrtFn permFeatures permNflods).output.outDim
      = outputDim := rfl

theorem cfgTower_outputDim (cfg : ModelCfg α) (ts : UserTowerSpec α) :
    (cfgTower cfg ts).outputDim = cfg.outputDim := by
  unfold cfgTower
  split <;> rfl

theorem cfgTower_output_outDim (cfg : ModelCfg α) (ts : UserTowerSpec α) :
    (cfgTower cfg ts).output.outDim = cfg.outputDim := by
  unfold cfgTower
  split <;> rfl

/-! ### Concrete fixtures used by the witnesses -/

/-- A concrete row module over `ℚ`: keep the first entry. -/
def idRowW : RowModule ℚ := ⟨fun r => [r.headD 0], 1, fun _ => rfl⟩

/-- Concrete linear parameters. -/
def linW : LinearParams ℚ := ⟨[[1]], [0]⟩

/-- Concrete stand-in for the framework square root. -/
def sqrtW : ℚ → ℚ := fun _ => 0

/-- Concrete user tower spec. -/
def specUW : UserTowerSpec ℚ := ⟨"u", idRowW, id, linW, ["f1"], [1]⟩

/-- Concrete item tower spec. -/
def specIW : UserTowerSpec ℚ := ⟨"it", idRowW, id, linW, ["g1"], [1]⟩

/-- Concrete model config: one user channel, no perm features. -/
def cfgW : ModelCfg ℚ := ⟨0, .INNER_PRODUCT, false, 1, [specUW], specIW, [], sqrtW⟩

/-- Concrete model config with `output_dim = 1`. -/
def cfgW7 : ModelCfg ℚ := { cfgW with outputDim := 1 }

/-- Concrete model config with one perm-configured user tower. -/
def cfgWP : ModelCfg ℚ := { cfgW with userTowerPermFeat := [⟨"u", ["f1"], 1⟩] }

/-- Concrete grouped features: three item rows for a batch of two. -/
def gfW : String → Mat ℚ := fun s => if s = "it" then [[1], [2], [3]] else [[5], [6]]

/-- Concrete user tower with no perm features. -/
def twW : Tower ℚ := cfgTower cfgW specUW

/-- Concrete tower with one perm feature and `nflods = 0`. -/
def twP0 : Tower ℚ :=
  mkDSSMTower idRowW 0 .INNER_PRODUCT false id ["f1"] [1] linW sqrtW ["f1"] 0

/-! ### Claims -/

/-- Claim C7: every user tower and the item tower are constructed with the one
`output_dim` of the model config, and when `output_dim > 0` every row any of
them produces through `forward` has that length, so user and item embeddings
have the same final dimension. -/
theorem towers_share_output_dim (cfg : ModelCfg α) (h : 0 < cfg.outputDim) :
    (∀ p ∈ (mkFusionDSSMV2 cfg).userTowers, p.2.outputDim = cfg.outputDim) ∧
    (mkFusionDSSMV2 cfg).itemTower.outputDim = cfg.outputDim ∧
    (∀ p ∈ (mkFusionDSSMV2 cfg).userTowers,
      ∀ (f : Mat α) (ti : Option (List ℕ)) (perms : ℕ → List ℕ) (pm : Bool)
        (out : Mat α), forward p.2 f ti perms pm = .ok out →
        ∀ r ∈ out, r.length = cfg.outputDim) ∧
    (∀ (f : Mat α) (ti : Option (List ℕ)) (perms : ℕ → List ℕ) (pm : Bool)
      (out : Mat α), forward (mkFusionDSSMV2 cfg).itemTower f ti perms pm = .ok out →
      ∀ r ∈ out, r.length = cfg.outputDim) := by
  have huser : ∀ p ∈ (mkFusionDSSMV2 cfg).userTowers, p.2.outputDim = cfg.outputDim := by
    intro p hp
    obtain ⟨ts, _, rfl⟩ := List.mem_map.1 hp
    exact cfgTower_outputDim cfg ts
  have huserout : ∀ p ∈ (mkFusionDSSMV2 cfg).userTowers,
      p.2.output.outDim = cfg.outputDim := by
    intro p hp
    obtain ⟨ts, _, rfl⟩ := List.mem_map.1 hp
    exact cfgTower_output_outDim cfg ts
  refine ⟨huser, rfl, ?_, ?_⟩
  · intro p hp f ti perms pm out hout r hr
    obtain ⟨x, rfl⟩ := forward_rows_are_towerRow hout r hr
    rw [towerRow_length p.2 (by rw [huser p hp]; exact h)
      (by rw [huserout p hp, huser p hp]) x, huser p hp]
  · intro f ti perms pm out hout r hr
    obtain ⟨x, rfl⟩ := forward_rows_are_towerRow hout r hr
    exact towerRow_length (mkFusionDSSMV2 cfg).itemTower h rfl x

/-- Witness for claim C7 at a concrete config with `output_dim = 1`. -/
theorem towers_share_output_dim_witness :
    0 < cfgW7.outputDim ∧
    ((∀ p ∈ (mkFusionDSSMV2 cfgW7).userTowers, p.2.outputDim = cfgW7.outputDim) ∧
    (mkFusionDSSMV2 cfgW7).itemTower.outputDim = cfgW7.outputDim ∧
    (∀ p ∈ (mkFusionDSSMV2 cfgW7).userTowers,
      ∀ (f : Mat ℚ) (ti : Option (List ℕ)) (perms : ℕ → List ℕ) (pm : Bool)
        (out : Mat ℚ), forward p.2 f ti perms pm = .ok out →
        ∀ r ∈ out, r.length = cfgW7.outputDim) ∧
    (∀ (f : Mat ℚ) (ti : Option (List ℕ)) (perms : ℕ → List ℕ) (pm : Bool)
      (out : Mat ℚ), forward (mkFusionDSSMV2 cfgW7).itemTower f ti perms pm = .ok out →
      ∀ r ∈ out, r.length = cfgW7.outputDim)) :=
  ⟨by decide, towers_share_output_dim cfgW7 (by decide)⟩

/-- Claim C9: calling `forward` with `permute=True` on a tower with a
non-empty perm feature index list fails with the `torch.cat`-on-empty-list
error exactly when `perm_nflods = 0`; with `perm_nflods >= 1` that error
branch is unreachable. -/
theorem forward_permute_requires_positive_nflods (t : Tower α) (f : Mat α)
    (ti : Option (List ℕ)) (perms : ℕ → List ℕ) (hpf : t.permFeatsIndex ≠ []) :
    (t.permNflods = 0 → forward t f ti perms true = .error catMsg) ∧
    (1 ≤ t.permNflods → forward t f ti perms true ≠ .error catMsg) := by
  have hp : 0 < t.permFeatsIndex.length := List.length_pos.2 hpf
  constructor
  · intro h0
    rw [forward_permute_eq t f ti perms hp, h0, permFeat_zero]
  · intro h1 hc
    have hn : t.permNflods ≠ 0 := by omega
    rw [forward_permute_eq t f ti perms hp] at hc
    by_cases hd : t.featDims = []
    · have hie : (splitDims (applySelect f ti) t.featDims).isEmpty := by
        rw [List.isEmpty_iff, splitDims_eq_nil_iff]
        exact hd
      have hperr : permFeat (applySelect f ti) t.featDims t.permFeatsIndex
          t.permNflods perms = .error emptyListMsg := by
        simp [permFeat, hn, hie]
      rw [hperr] at hc
      have hc2 : (Except.error emptyListMsg : Except String (Mat α))
          = Except.error catMsg := hc
      exact absurd (Except.error.inj hc2) (by decide)
    · rw [permFeat_eq_ok _ _ _ _ _ hn hd] at hc
      have hc2 : Except.ok ((((List.range t.permNflods).map
          (fun k => permFold (splitDims (applySelect f ti) t.featDims)
            t.permFeatsIndex (perms k))).flatten).map (towerRow t))
          = (Except.error catMsg : Except String (Mat α)) := hc
      exact Except.noConfusion hc2

/-- Witness for claim C9 at a concrete tower with `nflods = 0`. -/
theorem forward_permute_requires_positive_nflods_witness :
    twP0.permFeatsIndex ≠ [] ∧
    ((twP0.permNflods = 0 →
      forward twP0 [[1]] none (fun _ => []) true = .error catMsg) ∧
    (1 ≤ twP0.permNflods →
      forward twP0 [[1]] none (fun _ => []) true ≠ .error catMsg)) :=
  ⟨by decide, forward_permute_requires_positive_nflods twP0 [[1]] none
    (fun _ => []) (by decide)⟩

/-- Claim C10: when the permutation branch is not taken, `forward` does not
depend on the random permutation stream: two runs with different draws give
equal outputs. -/
theorem forward_deterministic_without_permute (t : Tower α) (f : Mat α)
    (ti : Option (List ℕ)) (permute : Bool) (perms1 perms2 : ℕ → List ℕ)
    (h : permute = false ∨ t.permFeatsIndex = []) :
    forward t f ti perms1 permute = forward t f ti perms2 permute := by
  rcases h with rfl | h
  · rw [forward_false, forward_false]
  · simp [forward, h]

/-- Witness for claim C10 at a concrete tower and two different draws. -/
theorem forward_deterministic_without_permute_witness :
    ((false : Bool) = false ∨ twW.permFeatsIndex = []) ∧
    forward twW [[1], [2]] none (fun _ => [0, 1]) false
      = forward twW [[1], [2]] none (fun _ => [1, 0]) false :=
  ⟨Or.inl rfl, forward_deterministic_without_permute twW [[1], [2]] none false
    (fun _ => [0, 1]) (fun _ => [1, 0]) (Or.inl rfl)⟩

theorem getD_map_range {β : Type} (g : ℕ → β) (n k : ℕ) (d : β) (hk : k < n) :
    ((List.range n).map g).getD k d = g k := by
  rw [List.getD_eq_getElem _ _ (by simpa using hk)]
  simp

/-- Claim C5: in every fold produced by `_perm_feat`, the blocks whose index
is not in `perm_feats_index` are emitted unchanged, and the blocks whose
index is listed are all reindexed by the one permutation drawn for that
fold. -/
theorem permFeat_frame (feature : Mat α) (dims permIdx : List ℕ) (nflods : ℕ)
    (perms : ℕ → List ℕ) (out : Mat α)
    (hout : permFeat feature dims permIdx nflods perms = .ok out)
    (hperm : ∀ k, k < nflods → List.Perm (perms k) (List.range feature.length))
    (hw : ∀ r ∈ feature, r.length = dims.sum)
    (k : ℕ) (hk : k < nflods) :
    (splitDims ((out.drop (k * feature.length)).take feature.length) dims).length
      = dims.length ∧
    ∀ idx, idx < dims.length →
      (idx ∉ permIdx →
        (splitDims ((out.drop (k * feature.length)).take feature.length) dims).getD idx []
          = (splitDims feature dims).getD idx []) ∧
      (idx ∈ permIdx →
        (splitDims ((out.drop (k * feature.length)).take feature.length) dims).getD idx []
          = indexSelect ((splitDims feature dims).getD idx []) (perms k)) := by
  obtain ⟨hn, hd, hflat⟩ := permFeat_ok_inv hout
  have hflB : ∀ b ∈ splitDims feature dims, b.length = feature.length :=
    splitDims_rows feature dims
  have hfl0 : splitDims feature dims ≠ [] := by
    intro hnil
    exact hd ((splitDims_eq_nil_iff feature dims).1 hnil)
  have hlenk : ∀ k', k' < nflods → (perms k').length = feature.length := by
    intro k' hk'
    rw [(hperm k' hk').length_eq, List.length_range]
  have hvk : ∀ k', k' < nflods → ∀ j ∈ perms k', j < feature.length := by
    intro k' hk' j hj
    have := (hperm k' hk').mem_iff.1 hj
    simpa using this
  have hfoldB : ∀ l ∈ (List.range nflods).map
      (fun k' => permFold (splitDims feature dims) permIdx (perms k')),
      l.length = feature.length := by
    intro l hl
    obtain ⟨k', hk', rfl⟩ := List.mem_map.1 hl
    have hk'2 : k' < nflods := List.mem_range.1 hk'
    exact permFold_length _ permIdx (perms k') hfl0 hflB (hlenk k' hk'2)
  have hchunk : (out.drop (k * feature.length)).take feature.length
      = permFold (splitDims feature dims) permIdx (perms k) := by
    rw [hflat, flatten_chunk _ hfoldB k (by simpa using hk),
      getD_map_range _ nflods k [] hk]
  have hsplit : splitDims ((out.drop (k * feature.length)).take feature.length) dims
      = permBlocksAux permIdx (perms k) 0 (splitDims feature dims) := by
    rw [hchunk]
    exact splitDims_catBlocks _ dims
      (permBlocksAux_rows hflB (hlenk k hk) 0)
      (permBlocksAux_widths (hvk k hk) (splitDims_widths feature dims hw) hflB 0)
  constructor
  · rw [hsplit, permBlocksAux_length, splitDims_length]
  · intro idx hidx
    have hidx' : idx < (splitDims feature dims).length := by
      rw [splitDims_length]
      exact hidx
    have hgd := permBlocksAux_getD permIdx (perms k) 0 (splitDims feature dims)
      idx hidx'
    rw [Nat.zero_add] at hgd
    constructor
    · intro hnm
      rw [hsplit, hgd, if_neg hnm]
    · intro hm
      rw [hsplit, hgd, if_pos hm]

/-- Witness for claim C5 at a concrete two-row input with one permuted
block. -/
theorem permFeat_frame_witness :
    permFeat ([[1, 2], [3, 4]] : Mat ℚ) [1, 1] [1] 1 (fun _ => [1, 0])
        = .ok [[1, 4], [3, 2]] ∧
    (∀ k, k < 1 → List.Perm ((fun _ : ℕ => [1, 0]) k) (List.range 2)) ∧
    (∀ r ∈ ([[1, 2], [3, 4]] : Mat ℚ), r.length = ([1, 1] : List ℕ).sum) ∧
    0 < 1 ∧
    ((splitDims ((([[1, 4], [3, 2]] : Mat ℚ).drop (0 * 2)).take 2) [1, 1]).length
      = ([1, 1] : List ℕ).length ∧
    ∀ idx, idx < ([1, 1] : List ℕ).length →
      (idx ∉ ([1] : List ℕ) →
        (splitDims ((([[1, 4], [3, 2]] : Mat ℚ).drop (0 * 2)).take 2) [1, 1]).getD idx []
          = (splitDims ([[1, 2], [3, 4]] : Mat ℚ) [1, 1]).getD idx []) ∧
      (idx ∈ ([1] : List ℕ) →
        (splitDims ((([[1, 4], [3, 2]] : Mat ℚ).drop (0 * 2)).take 2) [1, 1]).getD idx []
          = indexSelect ((splitDims ([[1, 2], [3, 4]] : Mat ℚ) [1, 1]).getD idx [])
              ((fun _ : ℕ => [1, 0]) 0))) :=
  ⟨by rfl, by decide, by decide, by decide,
    permFeat_frame [[1, 2], [3, 4]] [1, 1] [1] 1 (fun _ => [1, 0])
      [[1, 4], [3, 2]] (by rfl) (by decide) (by decide) 0 (by decide)⟩

/-- Claim C6: `_perm_feat` concatenates `perm_nflods` permuted copies of the
input along the batch dimension, so the output has `perm_nflods * B` rows of
unchanged width `sum(feat_dims)`, and `forward` with `permute=True` and a
non-empty perm feature list produces `perm_nflods` times as many rows as its
input. -/
theorem permFeat_rows_count (feature : Mat α) (dims permIdx : List ℕ)
    (nflods : ℕ) (perms : ℕ → List ℕ) (hn : 1 ≤ nflods) (hd : dims ≠ [])
    (hperm : ∀ k, k < nflods → List.Perm (perms k) (List.range feature.length))
    (hw : ∀ r ∈ feature, r.length = dims.sum) :
    ∃ out, permFeat feature dims permIdx nflods perms = .ok out ∧
      out = ((List.range nflods).map
        (fun k => permFold (splitDims feature dims) permIdx (perms k))).flatten ∧
      out.length = nflods * feature.length ∧
      (∀ r ∈ out, r.length = dims.sum) ∧
      (∀ t : Tower α, t.featDims = dims → t.permFeatsIndex = permIdx →
        t.permNflods = nflods → t.permFeatsIndex ≠ [] →
        ∃ fout, forward t feature none perms true = .ok fout ∧
          fout.length = nflods * feature.length) := by
  have hflB : ∀ b ∈ splitDims feature dims, b.length = feature.length :=
    splitDims_rows feature dims
  have hfl0 : splitDims feature dims ≠ [] := by
    intro hnil
    exact hd ((splitDims_eq_nil_iff feature dims).1 hnil)
  have hlenk : ∀ k', k' < nflods → (perms k').length = feature.length := by
    intro k' hk'
    rw [(hperm k' hk').length_eq, List.length_range]
  have hvk : ∀ k', k' < nflods → ∀ j ∈ perms k', j < feature.length := by
    intro k' hk' j hj
    have := (hperm k' hk').mem_iff.1 hj
    simpa using this
  have hok := permFeat_eq_ok feature dims permIdx nflods perms (by omega) hd
  set folds := (List.range nflods).map
    (fun k => permFold (splitDims feature dims) permIdx (perms k)) with hfolds
  have hfoldB : ∀ l ∈ folds, l.length = feature.length := by
    intro l hl
    obtain ⟨k', hk', rfl⟩ := List.mem_map.1 hl
    have hk'2 : k' < nflods := List.mem_range.1 hk'
    exact permFold_length _ permIdx (perms k') hfl0 hflB (hlenk k' hk'2)
  have hlen : folds.flatten.length = nflods * feature.length := by
    rw [List.length_flatten]
    have hrep : folds.map List.length = List.replicate nflods feature.length := by
      rw [List.eq_replicate_iff]
      refine ⟨by simp [hfolds], ?_⟩
      intro x hx
      obtain ⟨l, hl, rfl⟩ := List.mem_map.1 hx
      exact hfoldB l hl
    rw [hrep, List.sum_replicate, smul_eq_mul]
  have hwid : ∀ r ∈ folds.flatten, r.length = dims.sum := by
    intro r hr
    obtain ⟨l, hl, hrl⟩ := List.mem_flatten.1 hr
    obtain ⟨k', hk', rfl⟩ := List.mem_map.1 hl
    have hk'2 : k' < nflods := List.mem_range.1 hk'
    exact catBlocks_row_length _ dims
      (permBlocksAux_rows hflB (hlenk k' hk'2) 0)
      (permBlocksAux_widths (hvk k' hk'2) (splitDims_widths feature dims hw)
        hflB 0) r hrl
  refine ⟨folds.flatten, hok, rfl, hlen, hwid, ?_⟩
  intro t hdims hidx hnf hne
  have hp : 0 < t.permFeatsIndex.length := List.length_pos.2 hne
  rw [forward_permute_eq t feature none perms hp]
  have happ : applySelect feature (none : Option (List ℕ)) = feature := rfl
  rw [happ, hdims, hidx, hnf, hok]
  exact ⟨folds.flatten.map (towerRow t), rfl, by rw [List.length_map]; exact hlen⟩

/-- Witness for claim C6 at a concrete two-row input and two folds. -/
theorem permFeat_rows_count_witness :
    1 ≤ 2 ∧ ([1, 1] : List ℕ) ≠ [] ∧
    (∀ k, k < 2 → List.Perm ((fun _ : ℕ => [1, 0]) k) (List.range 2)) ∧
    (∀ r ∈ ([[1, 2], [3, 4]] : Mat ℚ), r.length = ([1, 1] : List ℕ).sum) ∧
    (∃ out, permFeat ([[1, 2], [3, 4]] : Mat ℚ) [1, 1] [1] 2 (fun _ => [1, 0])
        = .ok out ∧
      out = ((List.range 2).map
        (fun k => permFold (splitDims ([[1, 2], [3, 4]] : Mat ℚ) [1, 1]) [1]
          ((fun _ : ℕ => [1, 0]) k))).flatten ∧
      out.length = 2 * ([[1, 2], [3, 4]] : Mat ℚ).length ∧
      (∀ r ∈ out, r.length = ([1, 1] : List ℕ).sum) ∧
      (∀ t : Tower ℚ, t.featDims = [1, 1] → t.permFeatsIndex = [1] →
        t.permNflods = 2 → t.permFeatsIndex ≠ [] →
        ∃ fout, forward t [[1, 2], [3, 4]] none (fun _ => [1, 0]) true = .ok fout ∧
          fout.length = 2 * ([[1, 2], [3, 4]] : Mat ℚ).length)) :=
  ⟨by decide, by decide, by decide, by decide,
    permFeat_rows_count [[1, 2], [3, 4]] [1, 1] [1] 2 (fun _ => [1, 0])
      (by decide) (by decide) (by decide) (by decide)⟩

/-- Default row module. -/
def junkRowModule : RowModule α := ⟨fun _ => [], 0, fun _ => rfl⟩

/-- Default tower spec used with `List.getD` in claim statements. -/
def junkSpec : UserTowerSpec α := ⟨"", junkRowModule, id, ⟨[], []⟩, [], []⟩

theorem predict_ok_entries {cfg : ModelCfg α} {training : Bool}
    {gf : String → Mat α} {channel : List ℕ} {rng : ℕ → ℕ → List ℕ}
    {out : List (String × Mat α)}
    (hout : predict (mkFusionDSSMV2 cfg) training gf channel rng = .ok out)
    (hnd : (cfg.userTowers.map UserTowerSpec.input).Nodup) :
    out.length = cfg.userTowers.length ∧
    ∀ i, ∀ hi : i < cfg.userTowers.length,
      predictEntry (mkFusionDSSMV2 cfg) training gf channel rng
        ((gf cfg.itemTower.input).map (towerRow (mkFusionDSSMV2 cfg).itemTower))
        i ((cfg.userTowers.get ⟨i, hi⟩).input)
        (cfgTower cfg (cfg.userTowers.get ⟨i, hi⟩))
        = .ok (out.getD i junkEntry) := by
  have hinv := predict_ok_inv hout
  have hnames : (mkFusionDSSMV2 cfg).userTowers.map Prod.fst
      = cfg.userTowers.map UserTowerSpec.input := by
    simp [mkFusionDSSMV2, List.map_map, Function.comp]
  rw [hnames] at hinv
  obtain ⟨es, heq, hlen, hpt⟩ := predictEntries_ok _ 0 [] out hinv (by simp) hnd
  have hes : out = es := by simpa using heq
  constructor
  · rw [hes, hlen, List.length_map]
  · intro i hi
    have hi' : i < (cfg.userTowers.map UserTowerSpec.input).length := by
      simpa using hi
    obtain ⟨tw, hg, hpe⟩ := hpt i hi'
    have hiu : i < (mkFusionDSSMV2 cfg).userTowers.length := by
      simpa [mkFusionDSSMV2] using hi
    have hgn := getattrTower_nodup
      ((mkFusionDSSMV2 cfg).userTowers) (by rw [hnames]; exact hnd) hiu
    have hget : (mkFusionDSSMV2 cfg).userTowers.get ⟨i, hiu⟩
        = ((cfg.userTowers.get ⟨i, hi⟩).input,
            cfgTower cfg (cfg.userTowers.get ⟨i, hi⟩)) := by
      simp [mkFusionDSSMV2, List.get_eq_getElem, List.getElem_map]
    have hname : (cfg.userTowers.map UserTowerSpec.input).get ⟨i, hi'⟩
        = (cfg.userTowers.get ⟨i, hi⟩).input := by
      simp [List.get_eq_getElem, List.getElem_map]
    rw [hname] at hg hpe
    simp only [hget] at hgn
    have htw : tw = cfgTower cfg (cfg.userTowers.get ⟨i, hi⟩) := by
      rw [hg] at hgn
      exact Option.some.inj hgn
    rw [htw, Nat.zero_add] at hpe
    rw [hes]
    exact hpe

/-- The property claimed of the channel loop: one entry per user tower, the
entry of channel `i` is stored under `similarity_{input}`, and the user
embedding it scores is the tower applied to exactly the feature rows `j`
with `channel[j] == i`, in ascending order. -/
def routingSpec (cfg : ModelCfg α) (training : Bool) (gf : String → Mat α)
    (channel : List ℕ) (out : List (String × Mat α)) (i : ℕ) : Prop :=
  let ts := cfg.userTowers.getD i junkSpec
  let tw := cfgTower cfg ts
  let itemEmb := (gf cfg.itemTower.input).map (towerRow (mkFusionDSSMV2 cfg).itemTower)
  let userEmbSel := ((List.range channel.length).filter
      (fun j => channel.getD j 0 == i)).map
    (fun j => towerRow tw ((gf ts.input).getD j []))
  let base := simMatrix userEmbSel
    (indexSelect itemEmb (whereEq channel i) ++ itemEmb.drop channel.length)
  out.length = cfg.userTowers.length ∧
  (out.getD i junkEntry).1 = simKey ts.input ∧
  (¬ ((dictLookup cfg.userTowerPermFeat ts.input).isSome ∧ training = true) →
    (out.getD i junkEntry).2 = scaleMatrix base cfg.temperature) ∧
  (((dictLookup cfg.userTowerPermFeat ts.input).isSome ∧ training = true) →
    ∃ extra, (out.getD i junkEntry).2
      = scaleMatrix (catCols base extra) cfg.temperature)

/-- Claim C1: `predict` routes to user tower `i` exactly the embedded rows
whose channel label is `i`, stores the scaled similarity under
`similarity_{input}`, and emits one entry per user tower. -/
theorem predict_channel_routing (cfg : ModelCfg α) (training : Bool)
    (gf : String → Mat α) (channel : List ℕ) (rng : ℕ → ℕ → List ℕ)
    (out : List (String × Mat α))
    (hout : predict (mkFusionDSSMV2 cfg) training gf channel rng = .ok out)
    (hnd : (cfg.userTowers.map UserTowerSpec.input).Nodup)
    (i : ℕ) (hi : i < cfg.userTowers.length) :
    routingSpec cfg training gf channel out i := by
  obtain ⟨hlen, hpt⟩ := predict_ok_entries hout hnd
  have hpe := hpt i hi
  have hgetD : cfg.userTowers.get ⟨i, hi⟩ = cfg.userTowers.getD i junkSpec := by
    rw [List.getD_eq_getElem _ _ hi]
    rfl
  rw [hgetD] at hpe
  have hcases := predictEntry_ok_cases hpe
  have hkey := predictEntry_key hpe
  refine ⟨hlen, hkey, ?_, ?_⟩
  · intro hno
    have : dictLookup (mkFusionDSSMV2 cfg).permTowers
        (cfg.userTowers.getD i junkSpec).input = none ∨ training = false := by
      by_cases htr : training = true
      · left
        rcases hdl : dictLookup (mkFusionDSSMV2 cfg).permTowers
            (cfg.userTowers.getD i junkSpec).input with _ | pc
        · rfl
        · exact absurd ⟨by rw [show dictLookup cfg.userTowerPermFeat
              (cfg.userTowers.getD i junkSpec).input = dictLookup
              (mkFusionDSSMV2 cfg).permTowers
              (cfg.userTowers.getD i junkSpec).input from rfl, hdl]; rfl, htr⟩ hno
      · right
        exact Bool.not_eq_true training ▸ htr
    have he := hcases.1 this
    rw [he]
    simp only []
    rw [indexSelect_map_whereEq]
    rfl
  · intro hyes
    rcases hdl : dictLookup (mkFusionDSSMV2 cfg).permTowers
        (cfg.userTowers.getD i junkSpec).input with _ | pc
    · exact absurd hyes (by
        rw [show dictLookup cfg.userTowerPermFeat
          (cfg.userTowers.getD i junkSpec).input = dictLookup
          (mkFusionDSSMV2 cfg).permTowers
          (cfg.userTowers.getD i junkSpec).input from rfl, hdl]
        simp)
    · obtain ⟨permEmb, _, he⟩ := hcases.2 pc hdl hyes.2
      refine ⟨einsumBijIjIb (reshapeFolds pc.nflods permEmb)
        (indexSelect ((gf cfg.itemTower.input).map
          (towerRow (mkFusionDSSMV2 cfg).itemTower)) (whereEq channel i)), ?_⟩
      rw [he]
      simp only []
      rw [indexSelect_map_whereEq]
      rfl

/-- Witness for claim C1 at a concrete one-tower model and a batch of two
examples of channel 0 with one in-batch negative item row. -/
theorem predict_channel_routing_witness :
    predict (mkFusionDSSMV2 cfgW) false gfW [0, 0] (fun _ _ => [])
        = .ok [("similarity_u", [[5, 10, 15], [6, 12, 18]])] ∧
    (cfgW.userTowers.map UserTowerSpec.input).Nodup ∧
    0 < cfgW.userTowers.length ∧
    routingSpec cfgW false gfW [0, 0]
      [("similarity_u", [[5, 10, 15], [6, 12, 18]])] 0 := by
  have hout : predict (mkFusionDSSMV2 cfgW) false gfW [0, 0] (fun _ _ => [])
      = .ok [("similarity_u", [[5, 10, 15], [6, 12, 18]])] := by
    norm_num +decide [predict, predictEntries, predictEntry, forward,
      mkFusionDSSMV2, cfgW, gfW, specUW, specIW, idRowW, linW, sqrtW,
      getattrTower, dictLookup, dictInsert, cfgTower, mkDSSMTower, applySelect,
      whereEq, indexSelect, simMatrix, dotList, scaleMatrix, towerRow,
      preNormRow, simKey, List.range, List.range.loop, List.filter]
  exact ⟨hout, by decide, by decide,
    predict_channel_routing cfgW false gfW [0, 0] (fun _ _ => []) _ hout
      (by decide) 0 (by decide)⟩

theorem whereEq_lt {ch : List ℕ} {i j : ℕ} (hj : j ∈ whereEq ch i) :
    j < ch.length := by
  unfold whereEq at hj
  have := List.mem_filter.1 hj
  simpa using List.mem_range.1 this.1

theorem drop_getD (l : Mat α) (n k : ℕ) :
    (l.drop n).getD k [] = l.getD (n + k) [] := by
  rw [List.getD_eq_getD_get?, List.getD_eq_getD_get?, List.get?_eq_getElem?,
    List.get?_eq_getElem?, List.getElem?_drop]

/-- The property claimed of the item side: the model holds the single item
tower built from the item feature group with no perm features, the item
embedding is the item feature group pushed once through that tower, and
every channel scores against rows of that one tensor (positives selected by
the channel's `tower_index`, negatives taken from the same tensor). -/
def singleItemTowerSpec (cfg : ModelCfg α) (training : Bool)
    (gf : String → Mat α) (channel : List ℕ)
    (out : List (String × Mat α)) : Prop :=
  let itemEmb := (gf cfg.itemTower.input).map (towerRow (mkFusionDSSMV2 cfg).itemTower)
  (mkFusionDSSMV2 cfg).itemTower = mkDSSMTower cfg.itemTower.mlp cfg.outputDim
    cfg.similarity cfg.useSenet cfg.itemTower.senet cfg.itemTower.featureNames
    cfg.itemTower.groupDims cfg.itemTower.linParams cfg.sqrtFn [] 0 ∧
  ∀ i, i < cfg.userTowers.length →
    let ts := cfg.userTowers.getD i junkSpec
    let tw := cfgTower cfg ts
    let userEmb := (indexSelect (gf ts.input) (whereEq channel i)).map (towerRow tw)
    let pos := indexSelect itemEmb (whereEq channel i)
    let neg := itemEmb.drop channel.length
    (¬ ((dictLookup cfg.userTowerPermFeat ts.input).isSome ∧ training = true) →
      (out.getD i junkEntry).2
        = scaleMatrix (simMatrix userEmb (pos ++ neg)) cfg.temperature) ∧
    (((dictLookup cfg.userTowerPermFeat ts.input).isSome ∧ training = true) →
      ∃ extra, (out.getD i junkEntry).2
        = scaleMatrix (catCols (simMatrix userEmb (pos ++ neg)) extra)
            cfg.temperature) ∧
    (channel.length ≤ itemEmb.length → ∀ r ∈ pos ++ neg, r ∈ itemEmb)

/-- Claim C2: the model constructs exactly one item tower, the item embedding
is computed once from the item feature group, and every channel's similarity
is computed against rows of that single tensor. -/
theorem predict_single_item_tower (cfg : ModelCfg α) (training : Bool)
    (gf : String → Mat α) (channel : List ℕ) (rng : ℕ → ℕ → List ℕ)
    (out : List (String × Mat α))
    (hout : predict (mkFusionDSSMV2 cfg) training gf channel rng = .ok out)
    (hnd : (cfg.userTowers.map UserTowerSpec.input).Nodup) :
    singleItemTowerSpec cfg training gf channel out := by
  obtain ⟨hlen, hpt⟩ := predict_ok_entries hout hnd
  refine ⟨rfl, ?_⟩
  intro i hi
  have hpe := hpt i hi
  have hgetD : cfg.userTowers.get ⟨i, hi⟩ = cfg.userTowers.getD i junkSpec := by
    rw [List.getD_eq_getElem _ _ hi]
    rfl
  rw [hgetD] at hpe
  have hcases := predictEntry_ok_cases hpe
  refine ⟨?_, ?_, ?_⟩
  · intro hno
    have hside : dictLookup (mkFusionDSSMV2 cfg).permTowers
        (cfg.userTowers.getD i junkSpec).input = none ∨ training = false := by
      by_cases htr : training = true
      · left
        rcases hdl : dictLookup (mkFusionDSSMV2 cfg).permTowers
            (cfg.userTowers.getD i junkSpec).input with _ | pc
        · rfl
        · exact absurd ⟨by rw [show dictLookup cfg.userTowerPermFeat
              (cfg.userTowers.getD i junkSpec).input = dictLookup
              (mkFusionDSSMV2 cfg).permTowers
              (cfg.userTowers.getD i junkSpec).input from rfl, hdl]; rfl, htr⟩ hno
      · right
        exact Bool.not_eq_true training ▸ htr
    have he := hcases.1 hside
    rw [he]
    rfl
  · intro hyes
    rcases hdl : dictLookup (mkFusionDSSMV2 cfg).permTowers
        (cfg.userTowers.getD i junkSpec).input with _ | pc
    · exact absurd hyes (by
        rw [show dictLookup cfg.userTowerPermFeat
          (cfg.userTowers.getD i junkSpec).input = dictLookup
          (mkFusionDSSMV2 cfg).permTowers
          (cfg.userTowers.getD i junkSpec).input from rfl, hdl]
        simp)
    · obtain ⟨permEmb, _, he⟩ := hcases.2 pc hdl hyes.2
      exact ⟨einsumBijIjIb (reshapeFolds pc.nflods permEmb)
        (indexSelect ((gf cfg.itemTower.input).map
          (towerRow (mkFusionDSSMV2 cfg).itemTower)) (whereEq channel i)),
        by rw [he]; rfl⟩
  · intro hle r hr
    rcases List.mem_append.1 hr with hr | hr
    · refine mem_of_mem_indexSelect hr ?_
      intro j hj
      exact lt_of_lt_of_le (whereEq_lt hj) hle
    · exact List.drop_subset _ _ hr

/-- Witness for claim C2 at the concrete one-tower model. -/
theorem predict_single_item_tower_witness :
    predict (mkFusionDSSMV2 cfgW) false gfW [0, 0] (fun _ _ => [])
        = .ok [("similarity_u", [[5, 10, 15], [6, 12, 18]])] ∧
    (cfgW.userTowers.map UserTowerSpec.input).Nodup ∧
    singleItemTowerSpec cfgW false gfW [0, 0]
      [("similarity_u", [[5, 10, 15], [6, 12, 18]])] := by
  have hout : predict (mkFusionDSSMV2 cfgW) false gfW [0, 0] (fun _ _ => [])
      = .ok [("similarity_u", [[5, 10, 15], [6, 12, 18]])] := by
    norm_num +decide [predict, predictEntries, predictEntry, forward,
      mkFusionDSSMV2, cfgW, gfW, specUW, specIW, idRowW, linW, sqrtW,
      getattrTower, dictLookup, dictInsert, cfgTower, mkDSSMTower, applySelect,
      whereEq, indexSelect, simMatrix, dotList, scaleMatrix, towerRow,
      preNormRow, simKey, List.range, List.range.loop, List.filter]
  exact ⟨hout, by decide,
    predict_single_item_tower cfgW false gfW [0, 0] (fun _ _ => []) _ hout
      (by decide)⟩

/-- The property claimed of the negatives: in every channel's similarity the
item rows scored after the positives are `item_tower_emb[batch_size:]`, the
rows of the item embedding at indices at least `batch.labels["channel"].size(0)`. -/
def inBatchNegativesSpec (cfg : ModelCfg α) (training : Bool)
    (gf : String → Mat α) (channel : List ℕ)
    (out : List (String × Mat α)) : Prop :=
  let itemEmb := (gf cfg.itemTower.input).map (towerRow (mkFusionDSSMV2 cfg).itemTower)
  let neg := itemEmb.drop channel.length
  neg.length = itemEmb.length - channel.length ∧
  (∀ k, neg.getD k [] = itemEmb.getD (channel.length + k) []) ∧
  ∀ i, i < cfg.userTowers.length →
    let ts := cfg.userTowers.getD i junkSpec
    let tw := cfgTower cfg ts
    let userEmb := (indexSelect (gf ts.input) (whereEq channel i)).map (towerRow tw)
    let pos := indexSelect itemEmb (whereEq channel i)
    (¬ ((dictLookup cfg.userTowerPermFeat ts.input).isSome ∧ training = true) →
      (out.getD i junkEntry).2
        = scaleMatrix (simMatrix userEmb (pos ++ neg)) cfg.temperature) ∧
    (((dictLookup cfg.userTowerPermFeat ts.input).isSome ∧ training = true) →
      ∃ extra, (out.getD i junkEntry).2
        = scaleMatrix (catCols (simMatrix userEmb (pos ++ neg)) extra)
            cfg.temperature)

/-- Claim C3: the negative item embeddings concatenated after the positives
are the rows of the single item tower output at indices greater than or
equal to the batch size `batch.labels["channel"].size(0)`. -/
theorem predict_in_batch_negatives (cfg : ModelCfg α) (training : Bool)
    (gf : String → Mat α) (channel : List ℕ) (rng : ℕ → ℕ → List ℕ)
    (out : List (String × Mat α))
    (hout : predict (mkFusionDSSMV2 cfg) training gf channel rng = .ok out)
    (hnd : (cfg.userTowers.map UserTowerSpec.input).Nodup) :
    inBatchNegativesSpec cfg training gf channel out := by
  have hsingle := predict_ok_entries hout hnd
  refine ⟨by simp, ?_, ?_⟩
  · intro k
    exact drop_getD _ channel.length k
  · intro i hi
    have hpe := hsingle.2 i hi
    have hgetD : cfg.userTowers.get ⟨i, hi⟩ = cfg.userTowers.getD i junkSpec := by
      rw [List.getD_eq_getElem _ _ hi]
      rfl
    rw [hgetD] at hpe
    have hcases := predictEntry_ok_cases hpe
    constructor
    · intro hno
      have hside : dictLookup (mkFusionDSSMV2 cfg).permTowers
          (cfg.userTowers.getD i junkSpec).input = none ∨ training = false := by
        by_cases htr : training = true
        · left
          rcases hdl : dictLookup (mkFusionDSSMV2 cfg).permTowers
              (cfg.userTowers.getD i junkSpec).input with _ | pc
          · rfl
          · exact absurd ⟨by rw [show dictLookup cfg.userTowerPermFeat
                (cfg.userTowers.getD i junkSpec).input = dictLookup
                (mkFusionDSSMV2 cfg).permTowers
                (cfg.userTowers.getD i junkSpec).input from rfl, hdl]; rfl, htr⟩ hno
        · right
          exact Bool.not_eq_true training ▸ htr
      have he := hcases.1 hside
      rw [he]
      rfl
    · intro hyes
      rcases hdl : dictLookup (mkFusionDSSMV2 cfg).permTowers
          (cfg.userTowers.getD i junkSpec).input with _ | pc
      · exact absurd hyes (by
          rw [show dictLookup cfg.userTowerPermFeat
            (cfg.userTowers.getD i junkSpec).input = dictLookup
            (mkFusionDSSMV2 cfg).permTowers
            (cfg.userTowers.getD i junkSpec).input from rfl, hdl]
          simp)
      · obtain ⟨permEmb, _, he⟩ := hcases.2 pc hdl hyes.2
        exact ⟨einsumBijIjIb (reshapeFolds pc.nflods permEmb)
          (indexSelect ((gf cfg.itemTower.input).map
            (towerRow (mkFusionDSSMV2 cfg).itemTower)) (whereEq channel i)),
          by rw [he]; rfl⟩

/-- Witness for claim C3 at the concrete one-tower model: the single
negative is the third item row, past the batch size of two. -/
theorem predict_in_batch_negatives_witness :
    predict (mkFusionDSSMV2 cfgW) false gfW [0, 0] (fun _ _ => [])
        = .ok [("similarity_u", [[5, 10, 15], [6, 12, 18]])] ∧
    (cfgW.userTowers.map UserTowerSpec.input).Nodup ∧
    inBatchNegativesSpec cfgW false gfW [0, 0]
      [("similarity_u", [[5, 10, 15], [6, 12, 18]])] := by
  have hout : predict (mkFusionDSSMV2 cfgW) false gfW [0, 0] (fun _ _ => [])
      = .ok [("similarity_u", [[5, 10, 15], [6, 12, 18]])] := by
    norm_num +decide [predict, predictEntries, predictEntry, forward,
      mkFusionDSSMV2, cfgW, gfW, specUW, specIW, idRowW, linW, sqrtW,
      getattrTower, dictLookup, dictInsert, cfgTower, mkDSSMTower, applySelect,
      whereEq, indexSelect, simMatrix, dotList, scaleMatrix, towerRow,
      preNormRow, simKey, List.range, List.range.loop, List.filter]
  exact ⟨hout, by decide,
    predict_in_batch_negatives cfgW false gfW [0, 0] (fun _ _ => []) _ hout
      (by decide)⟩

/-! ### Shapes of the similarity tensors -/

theorem simMatrix_length (u v : Mat α) : (simMatrix u v).length = u.length := by
  simp [simMatrix]

theorem simMatrix_row_length {u v : Mat α} {r : List α} (hr : r ∈ simMatrix u v) :
    r.length = v.length := by
  obtain ⟨ur, _, rfl⟩ := List.mem_map.1 hr
  simp

theorem einsum_length (folds : List (Mat α)) (pos : Mat α) :
    (einsumBijIjIb folds pos).length = pos.length := by
  simp [einsumBijIjIb]

theorem einsum_row_length {folds : List (Mat α)} {pos : Mat α} {r : List α}
    (hr : r ∈ einsumBijIjIb folds pos) : r.length = folds.length := by
  obtain ⟨i, _, rfl⟩ := List.mem_map.1 hr
  simp

theorem reshapeFolds_length (n : ℕ) (m : Mat α) : (reshapeFolds n m).length = n := by
  simp [reshapeFolds]

theorem scaleMatrix_length (m : Mat α) (t : α) :
    (scaleMatrix m t).length = m.length := by
  simp [scaleMatrix]

theorem mem_scaleMatrix {m : Mat α} {t : α} {r : List α} (hr : r ∈ scaleMatrix m t) :
    ∃ row ∈ m, r = row.map (fun x => x / t) := by
  simpa [scaleMatrix, eq_comm] using hr

theorem catCols_length (a b : Mat α) :
    (catCols a b).length = min a.length b.length := by
  simp [catCols]

theorem einsum_getD (folds : List (Mat α)) (pos : Mat α) (i2 b : ℕ)
    (hi2 : i2 < pos.length) (hb : b < folds.length) :
    ((einsumBijIjIb folds pos).getD i2 []).getD b 0
      = dotList ((folds.getD b []).getD i2 []) (pos.getD i2 []) := by
  unfold einsumBijIjIb
  rw [getD_map_range _ _ i2 [] hi2]
  rw [List.getD_eq_getElem _ _ (by simpa using hb), List.getElem_map,
    List.getD_eq_getElem folds [] hb]

/-- The property claimed of the permutation augmentation: in training mode a
tower listed in `user_tower_perm_feat` has its similarity tensor widened by
exactly `nflods` columns holding the einsum of the reshaped permuted user
embedding with the positive item rows, while an unlisted tower or a model in
evaluation mode gains no extra columns. -/
def permWideningSpec (cfg : ModelCfg α) (training : Bool) (gf : String → Mat α)
    (channel : List ℕ) (rng : ℕ → ℕ → List ℕ)
    (out : List (String × Mat α)) : Prop :=
  let itemEmb := (gf cfg.itemTower.input).map (towerRow (mkFusionDSSMV2 cfg).itemTower)
  ∀ i, i < cfg.userTowers.length →
    let ts := cfg.userTowers.getD i junkSpec
    let tw := cfgTower cfg ts
    let ti := whereEq channel i
    let pos := indexSelect itemEmb ti
    let items := pos ++ itemEmb.drop channel.length
    let base := simMatrix ((indexSelect (gf ts.input) ti).map (towerRow tw)) items
    (∀ pc, dictLookup cfg.userTowerPermFeat ts.input = some pc → training = true →
      ∃ permEmb, forward tw (gf ts.input) (some ti) (rng i) true = .ok permEmb ∧
        (out.getD i junkEntry).2
          = scaleMatrix (catCols base
              (einsumBijIjIb (reshapeFolds pc.nflods permEmb) pos)) cfg.temperature ∧
        (out.getD i junkEntry).2.length = ti.length ∧
        (∀ r ∈ (out.getD i junkEntry).2, r.length = items.length + pc.nflods) ∧
        (∀ i2 b, i2 < pos.length → b < pc.nflods →
          ((einsumBijIjIb (reshapeFolds pc.nflods permEmb) pos).getD i2 []).getD b 0
            = dotList (((reshapeFolds pc.nflods permEmb).getD b []).getD i2 [])
                (pos.getD i2 []))) ∧
    (¬ ((dictLookup cfg.userTowerPermFeat ts.input).isSome ∧ training = true) →
      (out.getD i junkEntry).2 = scaleMatrix base cfg.temperature ∧
      ∀ r ∈ (out.getD i junkEntry).2, r.length = items.length)

/-- Claim C4: in training mode, every perm-configured user tower's similarity
gains exactly `nflods` extra columns computed by
`einsum("bij,ij->ib", reshaped permuted user embedding, positive items)`:
entry `(i, b)` of the added block is the inner product of fold `b`'s row `i`
with positive item row `i`; otherwise no columns are added. -/
theorem predict_perm_widening (cfg : ModelCfg α) (training : Bool)
    (gf : String → Mat α) (channel : List ℕ) (rng : ℕ → ℕ → List ℕ)
    (out : List (String × Mat α))
    (hout : predict (mkFusionDSSMV2 cfg) training gf channel rng = .ok out)
    (hnd : (cfg.userTowers.map UserTowerSpec.input).Nodup) :
    permWideningSpec cfg training gf channel rng out := by
  obtain ⟨hlen, hpt⟩ := predict_ok_entries hout hnd
  intro i hi
  have hpe := hpt i hi
  have hgetD : cfg.userTowers.get ⟨i, hi⟩ = cfg.userTowers.getD i junkSpec := by
    rw [List.getD_eq_getElem _ _ hi]
    rfl
  rw [hgetD] at hpe
  have hcases := predictEntry_ok_cases hpe
  constructor
  · intro pc hdl htr
    obtain ⟨permEmb, hf, he⟩ := hcases.2 pc hdl htr
    refine ⟨permEmb, hf, ?_⟩
    have hval : (out.getD i junkEntry).2
        = scaleMatrix (catCols
            (simMatrix ((indexSelect (gf (cfg.userTowers.getD i junkSpec).input)
                (whereEq channel i)).map
              (towerRow (cfgTower cfg (cfg.userTowers.getD i junkSpec))))
              (indexSelect ((gf cfg.itemTower.input).map
                  (towerRow (mkFusionDSSMV2 cfg).itemTower)) (whereEq channel i)
                ++ ((gf cfg.itemTower.input).map
                  (towerRow (mkFusionDSSMV2 cfg).itemTower)).drop channel.length))
            (einsumBijIjIb (reshapeFolds pc.nflods permEmb)
              (indexSelect ((gf cfg.itemTower.input).map
                (towerRow (mkFusionDSSMV2 cfg).itemTower)) (whereEq channel i))))
          cfg.temperature := by
      rw [he]
      rfl
    refine ⟨hval, ?_, ?_, ?_⟩
    · rw [hval, scaleMatrix_length, catCols_length, simMatrix_length,
        List.length_map, indexSelect_length, einsum_length, indexSelect_length,
        min_self]
    · intro r hr
      rw [hval] at hr
      obtain ⟨row, hrow, rfl⟩ := mem_scaleMatrix hr
      obtain ⟨x, hx, y, hy, rfl⟩ := mem_zipApp hrow
      rw [List.length_map, List.length_append, simMatrix_row_length hx,
        einsum_row_length hy, reshapeFolds_length]
    · intro i2 b hi2 hb
      exact einsum_getD _ _ i2 b hi2 (by rw [reshapeFolds_length]; exact hb)
  · intro hno
    have hside : dictLookup (mkFusionDSSMV2 cfg).permTowers
        (cfg.userTowers.getD i junkSpec).input = none ∨ training = false := by
      by_cases htr : training = true
      · left
        rcases hdl : dictLookup (mkFusionDSSMV2 cfg).permTowers
            (cfg.userTowers.getD i junkSpec).input with _ | pc
        · rfl
        · exact absurd ⟨by rw [show dictLookup cfg.userTowerPermFeat
              (cfg.userTowers.getD i junkSpec).input = dictLookup
              (mkFusionDSSMV2 cfg).permTowers
              (cfg.userTowers.getD i junkSpec).input from rfl, hdl]; rfl, htr⟩ hno
      · right
        exact Bool.not_eq_true training ▸ htr
    have he := hcases.1 hside
    have hval : (out.getD i junkEntry).2
        = scaleMatrix (simMatrix ((indexSelect (gf (cfg.userTowers.getD i junkSpec).input)
              (whereEq channel i)).map
            (towerRow (cfgTower cfg (cfg.userTowers.getD i junkSpec))))
            (indexSelect ((gf cfg.itemTower.input).map
                (towerRow (mkFusionDSSMV2 cfg).itemTower)) (whereEq channel i)
              ++ ((gf cfg.itemTower.input).map
                (towerRow (mkFusionDSSMV2 cfg).itemTower)).drop channel.length))
          cfg.temperature := by
      rw [he]
      rfl
    refine ⟨hval, ?_⟩
    intro r hr
    rw [hval] at hr
    obtain ⟨row, hrow, rfl⟩ := mem_scaleMatrix hr
    rw [List.length_map, simMatrix_row_length hrow]

/-- Witness for claim C4 at a concrete model with one perm-configured tower
(`nflods = 1`) in training mode: each similarity row gains one einsum
column. -/
theorem predict_perm_widening_witness :
    predict (mkFusionDSSMV2 cfgWP) true gfW [0, 0] (fun _ _ => [1, 0])
        = .ok [("similarity_u", [[5, 10, 15, 6], [6, 12, 18, 10]])] ∧
    (cfgWP.userTowers.map UserTowerSpec.input).Nodup ∧
    permWideningSpec cfgWP true gfW [0, 0] (fun _ _ => [1, 0])
      [("similarity_u", [[5, 10, 15, 6], [6, 12, 18, 10]])] := by
  have hout : predict (mkFusionDSSMV2 cfgWP) true gfW [0, 0] (fun _ _ => [1, 0])
      = .ok [("similarity_u", [[5, 10, 15, 6], [6, 12, 18, 10]])] := by
    norm_num +decide [predict, predictEntries, predictEntry, forward,
      mkFusionDSSMV2, cfgWP, cfgW, gfW, specUW, specIW, idRowW, linW, sqrtW,
      getattrTower, dictLookup, dictInsert, cfgTower, mkDSSMTower, applySelect,
      whereEq, indexSelect, simMatrix, dotList, scaleMatrix, towerRow,
      preNormRow, simKey, permFeat, permFold, permBlocksAux, splitDims,
      catBlocks, reshapeFolds, einsumBijIjIb, catCols,
      List.range, List.range.loop, List.filter]
  exact ⟨hout, by decide,
    predict_perm_widening cfgWP true gfW [0, 0] (fun _ _ => [1, 0]) _ hout
      (by decide)⟩

/-! ### Normalization (claim C8) -/

theorem sumSq_cons (x : α) (r : List α) : sumSq (x :: r) = x * x + sumSq r := by
  simp [sumSq]

theorem sumSq_map_div (r : List α) (n : α) :
    sumSq (r.map (fun x => x / n)) = sumSq r / (n * n) := by
  induction r with
  | nil => simp [sumSq]
  | cons x r ih =>
    rw [List.map_cons, sumSq_cons, sumSq_cons, ih, div_mul_div_comm,
      div_add_div_same]

/-- Claim C8 (amended): when the similarity is COSINE and the framework
square root is exact at the row's sum of squares, every output row whose
pre-normalization L2 norm is at least the `eps = 1e-12` of `F.normalize` has
unit L2 norm (stated as sum of squares equal to one); rows with a smaller
norm are divided by `eps` instead.  When the similarity is not COSINE no
normalization is applied. -/
theorem towerRow_cosine_normalized (t : Tower α) (r : List α)
    (hs : t.sqrtFn (sumSq (preNormRow t r)) * t.sqrtFn (sumSq (preNormRow t r))
      = sumSq (preNormRow t r))
    (heps : (l2NormEps : α) ≤ t.sqrtFn (sumSq (preNormRow t r))) :
    (t.similarity = Similarity.COSINE → sumSq (towerRow t r) = 1) ∧
    (t.similarity ≠ Similarity.COSINE → towerRow t r = preNormRow t r) := by
  constructor
  · intro hcos
    have heps0 : (0 : α) < l2NormEps := by
      unfold l2NormEps
      positivity
    have hpos : 0 < t.sqrtFn (sumSq (preNormRow t r)) := lt_of_lt_of_le heps0 heps
    have hn : max (t.sqrtFn (sumSq (preNormRow t r))) (l2NormEps : α)
        = t.sqrtFn (sumSq (preNormRow t r)) := max_eq_left heps
    have hs0 : (0 : α) < sumSq (preNormRow t r) := hs ▸ mul_pos hpos hpos
    unfold towerRow
    rw [if_pos hcos]
    unfold normalizeRow
    rw [hn, sumSq_map_div, hs]
    exact div_self (ne_of_gt hs0)
  · intro hcos
    unfold towerRow
    rw [if_neg hcos]

/-- Concrete tower for the claim C8 witness: the pre-normalization row is
`[3, 4]` with norm `5`, above `eps`. -/
def tw8 : Tower ℚ where
  useSenet := false
  senet := id
  mlp := ⟨fun _ => [3, 4], 2, fun _ => rfl⟩
  outputDim := 0
  output := junkRowModule
  similarity := .COSINE
  sqrtFn := fun x => if x = 25 then 5 else 0
  featDims := [1]
  permFeatsIndex := []
  permNflods := 0

/-- Witness for the amended claim C8: the row `[3, 4]` normalizes to unit
sum of squares. -/
theorem towerRow_cosine_normalized_witness :
    (tw8.sqrtFn (sumSq (preNormRow tw8 [0])) * tw8.sqrtFn (sumSq (preNormRow tw8 [0]))
      = sumSq (preNormRow tw8 [0])) ∧
    ((l2NormEps : ℚ) ≤ tw8.sqrtFn (sumSq (preNormRow tw8 [0]))) ∧
    ((tw8.similarity = Similarity.COSINE → sumSq (towerRow tw8 [0]) = 1) ∧
    (tw8.similarity ≠ Similarity.COSINE → towerRow tw8 [0] = preNormRow tw8 [0])) := by
  have hs : tw8.sqrtFn (sumSq (preNormRow tw8 [0]))
      * tw8.sqrtFn (sumSq (preNormRow tw8 [0])) = sumSq (preNormRow tw8 [0]) := by
    norm_num [tw8, preNormRow, sumSq]
  have heps : (l2NormEps : ℚ) ≤ tw8.sqrtFn (sumSq (preNormRow tw8 [0])) := by
    norm_num [tw8, preNormRow, sumSq, l2NormEps]
  exact ⟨hs, heps, towerRow_cosine_normalized tw8 [0] hs heps⟩

/-- The tiny-norm counterexample tower: the pre-normalization row is
`[1e-13]`, whose norm is nonzero but below the `eps` of `F.normalize`. -/
def cexTw : Tower ℚ where
  useSenet := false
  senet := id
  mlp := ⟨fun _ => [((10 : ℚ) ^ 13)⁻¹], 1, fun _ => rfl⟩
  outputDim := 0
  output := junkRowModule
  similarity := .COSINE
  sqrtFn := fun x => if x = (((10 : ℚ) ^ 13)⁻¹) * (((10 : ℚ) ^ 13)⁻¹)
    then ((10 : ℚ) ^ 13)⁻¹ else 0
  featDims := [1]
  permFeatsIndex := []
  permNflods := 0

/-- Counterexample to claim C8 as stated: with COSINE similarity and an
exact square root, the row whose pre-normalization norm is the nonzero value
`1e-13` is divided by `eps = 1e-12`, so the output row has sum of squares
`1/100`: it has nonzero norm but not unit norm. -/
theorem towerRow_cosine_normalized_cex :
    cexTw.similarity = Similarity.COSINE ∧
    cexTw.sqrtFn (sumSq (preNormRow cexTw [0]))
        * cexTw.sqrtFn (sumSq (preNormRow cexTw [0]))
      = sumSq (preNormRow cexTw [0]) ∧
    0 < cexTw.sqrtFn (sumSq (preNormRow cexTw [0])) ∧
    sumSq (preNormRow cexTw [0]) ≠ 0 ∧
    sumSq (towerRow cexTw [0]) = 1 / 100 ∧
    sumSq (towerRow cexTw [0]) ≠ 0 ∧
    sumSq (towerRow cexTw [0]) ≠ 1 := by
  have hval : sumSq (towerRow cexTw [0]) = 1 / 100 := by
    have hpre : preNormRow cexTw [0] = [((10 : ℚ) ^ 13)⁻¹] := by
      norm_num [cexTw, preNormRow]
    have hsum : sumSq (preNormRow cexTw [0])
        = (((10 : ℚ) ^ 13)⁻¹) * (((10 : ℚ) ^ 13)⁻¹) := by
      rw [hpre]
      norm_num [sumSq]
    have hsq : cexTw.sqrtFn (sumSq (preNormRow cexTw [0])) = ((10 : ℚ) ^ 13)⁻¹ := by
      rw [hsum]
      norm_num [cexTw]
    have hmax : max (cexTw.sqrtFn (sumSq (preNormRow cexTw [0]))) (l2NormEps : ℚ)
        = (l2NormEps : ℚ) := by
      rw [hsq]
      rw [max_eq_right]
      norm_num [l2NormEps]
    unfold towerRow
    rw [if_pos (show cexTw.similarity = Similarity.COSINE from rfl)]
    unfold normalizeRow
    rw [hmax, sumSq_map_div, hsum]
    norm_num [l2NormEps]
  refine ⟨rfl, ?_, ?_, ?_, hval, ?_, ?_⟩
  · norm_num [cexTw, preNormRow, sumSq]
  · norm_num [cexTw, preNormRow, sumSq]
  · norm_num [cexTw, preNormRow, sumSq]
  · rw [hval]
    norm_num
  · rw [hval]
    norm_num

end FusionDSSMV2
